import Mathlib

/-!
Verification of the duplicates-finder core: a shallow embedding of the
duplicate-detection engine (name-, content- and folder-based grouping),
the folder structure hasher, the undo subsystem, the ignore-pattern
matchers and the directory walker, together with proofs of the spec's
claims about them.

Modelling conventions:
* JS `Map` objects are embedded as association lists in key-insertion
  order; `Map.set` replaces the value at an existing key in place and
  appends fresh keys at the end, exactly as in V8.
* File sizes are `Nat` (the sizes in the program are non-negative
  integers from `fs.stat`); `a - b` below only ever occurs where
  `b ≤ a` holds, so `Nat` subtraction agrees with JS arithmetic.
* The SHA-256 digest is an opaque parameter `digest : String → String`;
  a sequence of `hash.update(s_i)` calls followed by `digest()` is the
  digest of the concatenation of the `s_i`.
* `Array.prototype.sort()` with no comparator compares the stringified
  elements by UTF-16 code units and is stable (V8); a `[key, value]`
  entry pair stringifies to `key + "," + String(value)`, where a string
  value stringifies to itself and a plain object to `"[object Object]"`.
  The entry sorts are embedded with exactly those comparison strings.
* `uuid` group ids and wall-clock timestamps are irrelevant to every
  claim and are omitted from the embedded records.
-/

/-! ## Definitions -/

/-! ### Association-list model of JS `Map` grouping

`DuplicateDetector.findNameBasedDuplicates` / `findContentBasedDuplicates`
and `FolderComparer.findDuplicateFolders` all build a `Map<K, V[]>` by
pushing each element onto the array at its key.  `insertGrp` appends the
element to the existing entry (in place) or appends a fresh entry at the
end, matching `Map` insertion-order semantics. -/

def insertGrp {K α : Type} [DecidableEq K] (k : K) (f : α) :
    List (K × List α) → List (K × List α)
  | [] => [(k, [f])]
  | p :: gs => if p.1 = k then (p.1, p.2 ++ [f]) :: gs else p :: insertGrp k f gs

/-- Fold a list into key groups; elements whose key is `none` are skipped
(the `if (file.hash)` guard of the content pass). -/
def groupByKey {K α : Type} [DecidableEq K] (key : α → Option K) (l : List α) :
    List (K × List α) :=
  l.foldl (fun acc f => match key f with
    | some k => insertGrp k f acc
    | none => acc) []

def gLookup {K α : Type} [DecidableEq K] : List (K × List α) → K → Option (List α)
  | [], _ => none
  | p :: gs, k => if p.1 = k then some p.2 else gLookup gs k

/-- Embeds `Map.set`: replace the value at an existing key in place, append a
fresh key at the end. -/
def mapSet {β : Type} (k : String) (v : β) : List (String × β) → List (String × β)
  | [] => [(k, v)]
  | p :: rest => if p.1 = k then (k, v) :: rest else p :: mapSet k v rest

/-- Lexicographic comparison of char lists by code point, the order JS
string comparison uses (UTF-16 code units agree with code points on the
basic plane). -/
def listCharLe : List Char → List Char → Bool
  | [], _ => true
  | _ :: _, [] => false
  | a :: as, b :: bs =>
    if Nat.blt a.toNat b.toNat then true
    else if Nat.blt b.toNat a.toNat then false
    else listCharLe as bs

def strLe (a b : String) : Bool := listCharLe a.data b.data

instance {β : Type} (f : String × β → String) :
    DecidableRel (fun (p q : String × β) => strLe (f p) (f q) = true) :=
  fun p q => inferInstanceAs (Decidable (strLe (f p) (f q) = true))

instance : DecidableRel (fun (a b : String) => strLe a b = true) :=
  fun a b => inferInstanceAs (Decidable (strLe a b = true))

/-- Stable sort of entry pairs by a stringification of each pair, the shape
of JS `Array.prototype.sort()` with its default comparator (which compares
`String(element)`); `insertionSort` with a `≤`-style relation is stable,
matching V8. -/
def sortByStr {β : Type} (f : String × β → String) (l : List (String × β)) :
    List (String × β) :=
  l.insertionSort (fun p q => strLe (f p) (f q) = true)

/-- JS stringification of a `[key, value]` entry pair whose value is a
string: `Array.prototype.toString` joins the two elements with `","`. -/
def pairStr (p : String × String) : String := p.1 ++ "," ++ p.2

/-- Embeds `Array.from(files.entries()).sort()`: the default comparator
orders the `[path, hash]` pairs by their stringification
`path + "," + hash`. -/
def sortEntryPairs (l : List (String × String)) : List (String × String) :=
  sortByStr pairStr l

/-- JS stringification of a `[name, object]` entry pair: a plain object
stringifies to `"[object Object]"`, so only the name varies. -/
def dirPairStr (p : String × String) : String := p.1 ++ ",[object Object]"

/-- Embeds `Array.from(subdirectories.entries()).sort()`: the default
comparator orders the `[name, structure]` pairs by the stringification
`name + ",[object Object]"`. The comparator never inspects the structure
itself, so stably sorting the pairs after projecting each structure to its
`structureHash` yields the same entry order as the code, which sorts first
and projects while emitting. -/
def sortDirPairs (l : List (String × String)) : List (String × String) :=
  sortByStr dirPairStr l

/-- Sorting a plain list of strings lexicographically (used by the
spec-side formulation of the folder fingerprint). -/
def sortStrings (l : List String) : List String :=
  l.insertionSort (fun a b => strLe a b = true)

/-! ### Data model (`src/types/file.ts`, `src/types/duplicate.ts`)

`FileMetadata` keeps the fields the detector logic reads; the
`modified`/`created` timestamps and the optional `extension` are never
consulted by any embedded operation and are omitted. -/

structure FileMetadata where
  path : String
  name : String
  size : Nat
  isDirectory : Bool
  hash : Option String
deriving DecidableEq, Repr, Inhabited

inductive DuplicateType where
  | NAME_BASED
  | CONTENT_BASED
  | FOLDER_BASED
deriving DecidableEq, Repr, Inhabited

/-- Embeds `DuplicateGroup` without the freshly generated `uuid` id and the
(initially empty) `actions` map, neither of which any claim constrains. -/
structure DuplicateGroup where
  type : DuplicateType
  files : List FileMetadata
  totalSize : Nat
  potentialSavings : Nat
deriving DecidableEq, Repr, Inhabited

/-- Embeds `files.reduce((sum, file) => sum + file.size, 0)`. -/
def sumSizes (fs : List FileMetadata) : Nat := fs.foldl (fun s f => s + f.size) 0

/-- Embeds `Math.max(...files.map(f => f.size))`; only ever applied to nonempty
lists (where JS `Math.max()` of no arguments would be `-Infinity`). -/
def maxSize (fs : List FileMetadata) : Nat := (fs.map (·.size)).foldr Nat.max 0

/-! ### DuplicateDetector (`src/detector/duplicate-detector.ts`) -/

/-- Embeds `DuplicateDetector.findNameBasedDuplicates`: group files by `file.name`
in a `Map`, emit the groups with more than one file. -/
def findNameBasedDuplicates (files : List FileMetadata) : List DuplicateGroup :=
  (groupByKey (fun f => some f.name) files).filterMap (fun p =>
    if 1 < p.2.length then
      some { type := .NAME_BASED, files := p.2, totalSize := sumSizes p.2,
             potentialSavings := sumSizes p.2 - maxSize p.2 }
    else none)

/-- Embeds `DuplicateDetector.findContentBasedDuplicates`: group the files that
have a hash by `file.hash`, emit the groups with more than one file;
savings keep the first member (`totalSize - files[0].size`). -/
def findContentBasedDuplicates (files : List FileMetadata) : List DuplicateGroup :=
  (groupByKey (fun f => f.hash) files).filterMap (fun p =>
    if 1 < p.2.length then
      some { type := .CONTENT_BASED, files := p.2, totalSize := sumSizes p.2,
             potentialSavings := sumSizes p.2 - (p.2.headD default).size }
    else none)

/-! ### FolderComparer (`src/detector/folder-comparer.ts`)

A directory's contents are modelled as a tree of named entries; a file's
content is the string of its bytes (its size is the byte count). -/

inductive FTree where
  | file (name : String) (content : String)
  | dir (name : String) (entries : List FTree)

/-- The `FolderStructure` record of `folder-comparer.ts` (an inductive
because it nests itself under `subdirectories`). -/
inductive FolderStructure : Type where
  | mk : String → String → List (String × String) →
      List (String × FolderStructure) → String → FolderStructure

def FolderStructure.path : FolderStructure → String
  | .mk p _ _ _ _ => p

def FolderStructure.name : FolderStructure → String
  | .mk _ n _ _ _ => n

def FolderStructure.files : FolderStructure → List (String × String)
  | .mk _ _ f _ _ => f

def FolderStructure.subdirs : FolderStructure → List (String × FolderStructure)
  | .mk _ _ _ s _ => s

def FolderStructure.structureHash : FolderStructure → String
  | .mk _ _ _ _ h => h

def entryName : FTree → String
  | .file n _ => n
  | .dir n _ => n

def namesOf (es : List FTree) : List String := es.map entryName

/-- Embeds `path.relative(basePath, path.join(dir, name))` where `dir` sits at
relative position `pre` under `basePath`. -/
def joinRel (pre n : String) : String := if pre = "" then n else pre ++ "/" ++ n

/-- Embeds `directoryPath.split("/").pop() || ""`. -/
def lastSegment (path : String) : String := (path.splitOn "/").getLastD ""

/-- Embeds `FolderComparer.calculateStructureHash`: digest of the
default-sorted `file:<relativePath>:<hash>` entries followed by the
default-sorted `dir:<name>:<childStructureHash>` entries (`subdirs`
already projected to `(name, structureHash)` pairs, which by the
stability note on `sortDirPairs` leaves the entry order of the code
unchanged). -/
def calculateStructureHash (digest : String → String)
    (files : List (String × String)) (subdirs : List (String × String)) : String :=
  digest (String.join ((sortEntryPairs files).map (fun q => "file:" ++ q.1 ++ ":" ++ q.2)) ++
    String.join ((sortDirPairs subdirs).map (fun q => "dir:" ++ q.1 ++ ":" ++ q.2)))

mutual

/-- The entry loop of `FolderComparer.buildFolderStructure`: walk the
directory entries in order, hashing direct files into the `files` map
(keyed by path relative to the scan base) and recursing into
subdirectories (keyed by bare name, base path unchanged). -/
def buildEntries (digest : String → String) :
    String → String →
    (List (String × String) × List (String × FolderStructure)) →
    List FTree → List (String × String) × List (String × FolderStructure)
  | _, _, acc, [] => acc
  | dirPath, pre, acc, .file n c :: rest =>
    buildEntries digest dirPath pre (mapSet (joinRel pre n) (digest c) acc.1, acc.2) rest
  | dirPath, pre, acc, .dir n es :: rest =>
    buildEntries digest dirPath pre
      (acc.1,
        mapSet n (buildFolderStructure digest (dirPath ++ "/" ++ n) (joinRel pre n) n es)
          acc.2)
      rest
termination_by _ _ _ l => sizeOf l

/-- Embeds `FolderComparer.buildFolderStructure` for the directory at `dirPath`
(relative position `pre` under the scan base, named `name`) with entry
list `es`. -/
def buildFolderStructure (digest : String → String) :
    String → String → String → List FTree → FolderStructure
  | dirPath, pre, name, es =>
    (fun fd => FolderStructure.mk dirPath name fd.1 fd.2
        (calculateStructureHash digest fd.1
          (fd.2.map (fun q => (q.1, q.2.structureHash)))))
      (buildEntries digest dirPath pre ([], []) es)
termination_by _ _ _ es => sizeOf es + 1

end

/-- The direct-file entries `(relativePath, digest content)` of one
directory level, in entry order. -/
def filesOf (digest : String → String) (pre : String) (es : List FTree) :
    List (String × String) :=
  es.filterMap (fun e => match e with
    | .file n c => some (joinRel pre n, digest c)
    | .dir _ _ => none)

/-- The subdirectory entries `(name, structure)` of one directory level,
in entry order. -/
def dirsOf (digest : String → String) (dirPath pre : String) (es : List FTree) :
    List (String × FolderStructure) :=
  es.filterMap (fun e => match e with
    | .file _ _ => none
    | .dir n es' =>
      some (n, buildFolderStructure digest (dirPath ++ "/" ++ n) (joinRel pre n) n es'))

def fileNames (es : List FTree) : List String :=
  es.filterMap (fun e => match e with
    | .file n _ => some n
    | .dir _ _ => none)

def dirNames (es : List FTree) : List String :=
  es.filterMap (fun e => match e with
    | .file _ _ => none
    | .dir n _ => some n)

/-- Embeds `FolderComparer.findDuplicateFolders`: group structures by
`structureHash`, return the groups with more than one folder. -/
def findDuplicateFolders (structures : List FolderStructure) :
    List (List FolderStructure) :=
  ((groupByKey (fun s => some s.structureHash) structures).map Prod.snd).filter
    (fun g => 1 < g.length)

mutual

/-- Embeds `FolderComparer.getFolderSize` of a single tree entry (a file's size
is its byte count). -/
def treeSize : FTree → Nat
  | .file _ c => c.length
  | .dir _ es => treeSizeList es

def treeSizeList : List FTree → Nat
  | [] => 0
  | e :: rest => treeSize e + treeSizeList rest

end

/-- One scanned directory handed to the folder pass: its absolute path
and its tree of entries. -/
structure FolderInput where
  path : String
  entries : List FTree

/-- Embeds `FolderComparer.getFolderSize(folderPath)`: total size of the tree at
that path (0 when the path is unreadable / unknown). -/
def getFolderSize (dirs : List FolderInput) (p : String) : Nat :=
  match dirs.find? (fun d => d.path == p) with
  | some d => treeSizeList d.entries
  | none => 0

/-- Embeds `DuplicateDetector.findFolderBasedDuplicates`: build a structure per
directory (base path = the directory itself), group by structure hash,
convert each group's folders to `FileMetadata` and emit groups with more
than one member. -/
def findFolderBasedDuplicates (digest : String → String) (dirs : List FolderInput) :
    List DuplicateGroup :=
  let structures := dirs.map (fun d =>
    buildFolderStructure digest d.path "" (lastSegment d.path) d.entries)
  (findDuplicateFolders structures).filterMap (fun grp =>
    let files : List FileMetadata := grp.map (fun s =>
      { path := s.path, name := s.name, size := getFolderSize dirs s.path,
        isDirectory := true, hash := none })
    if 1 < files.length then
      some ({ type := .FOLDER_BASED, files := files, totalSize := sumSizes files,
              potentialSavings := sumSizes files - maxSize files } : DuplicateGroup)
    else none)

/-- Embeds `DuplicateDetector.detectDuplicates`: concatenation of the three
passes. -/
def detectDuplicates (digest : String → String) (files : List FileMetadata)
    (dirs : List FolderInput) : List DuplicateGroup :=
  findNameBasedDuplicates files ++ findContentBasedDuplicates files ++
    findFolderBasedDuplicates digest dirs

/-! ### Spec-side formulations of the folder fingerprint and tree
canonicalization (for the refinement claims about `calculateStructureHash`) -/

/-- All descendant files of a directory, paths relative to it, with their
content fingerprints (the spec's reading of the `files` entry list). -/
def descFiles (digest : String → String) :
    String → List FTree → List (String × String)
  | _, [] => []
  | pre, .file n c :: rest => (joinRel pre n, digest c) :: descFiles digest pre rest
  | pre, .dir n es :: rest =>
    descFiles digest (joinRel pre n) es ++ descFiles digest pre rest
termination_by _ l => sizeOf l

mutual

/-- Modelled from the spec: the composite fingerprint as §4.4 words it —
the digest of the concatenation of two lexicographically sorted textual
entry lists, `"file:<relativePath>:<fingerprint>"` for every descendant
file (relative to this directory) and `"dir:<name>:<childComposite>"`
for every immediate child directory. -/
def specCompositeDesc (digest : String → String) (es : List FTree) : String :=
  digest (String.join (sortStrings ((descFiles digest "" es).map
      (fun q => "file:" ++ q.1 ++ ":" ++ q.2))) ++
    String.join (sortStrings (specDescDirEntries digest es)))
termination_by sizeOf es + 1

def specDescDirEntries (digest : String → String) : List FTree → List String
  | [] => []
  | .file _ _ :: rest => specDescDirEntries digest rest
  | .dir n es :: rest =>
    ("dir:" ++ n ++ ":" ++ specCompositeDesc digest es) :: specDescDirEntries digest rest
termination_by l => sizeOf l

end

mutual

/-- The amended spec-side fingerprint: entries for the immediate files
only (paths still relative to the scan base), child hashes computed the
same way; the file entries ordered by the JS default sort of the
stringified `[path, hash]` pairs and the directory entries by that of the
stringified `[name, structure]` pairs. -/
def specCompositeDirect (digest : String → String) :
    String → List FTree → String
  | pre, es =>
    digest (String.join ((sortEntryPairs (filesOf digest pre es)).map
        (fun q => "file:" ++ q.1 ++ ":" ++ q.2)) ++
      String.join ((sortDirPairs (specDirectDirEntries digest pre es)).map
        (fun q => "dir:" ++ q.1 ++ ":" ++ q.2)))
termination_by _ es => sizeOf es + 1

def specDirectDirEntries (digest : String → String) :
    String → List FTree → List (String × String)
  | _, [] => []
  | pre, .file _ _ :: rest => specDirectDirEntries digest pre rest
  | pre, .dir n es :: rest =>
    (n, specCompositeDirect digest (joinRel pre n) es) ::
      specDirectDirEntries digest pre rest
termination_by _ l => sizeOf l

end

instance : DecidableRel (fun (a b : FTree) => strLe (entryName a) (entryName b) = true) :=
  fun a b => inferInstanceAs (Decidable (strLe (entryName a) (entryName b) = true))

mutual

/-- Recursively canonicalize a tree by sorting every entry list by name;
two directories are "structurally identical up to enumeration order"
exactly when their canonicalizations agree. -/
def sortTree : FTree → FTree
  | .file n c => .file n c
  | .dir n es => .dir n ((sortEach es).insertionSort (fun a b => strLe (entryName a) (entryName b) = true))

def sortEach : List FTree → List FTree
  | [] => []
  | e :: rest => sortTree e :: sortEach rest

end

def sortTreeList (es : List FTree) : List FTree :=
  (sortEach es).insertionSort (fun a b => strLe (entryName a) (entryName b) = true)

mutual

/-- Well-formedness of a directory level as a real filesystem guarantees
it: entry names are distinct at every level. -/
def wfTree : FTree → Bool
  | .file _ _ => true
  | .dir _ es => decide ((namesOf es).Nodup) && wfAll es

def wfAll : List FTree → Bool
  | [] => true
  | e :: rest => wfTree e && wfAll rest

end

def wfEntries (es : List FTree) : Bool := decide ((namesOf es).Nodup) && wfAll es

/-- A digest whose outputs never contain a comma, as with the program's
hex SHA-256 digests (used to instantiate the order-invariance theorem). -/
def commaFreeDigest (s : String) : String :=
  String.mk (s.data.filter (fun c => c != ','))

/-! ### UndoSystem (`src/utils/undo-system.ts`)

The filesystem visible to the undo manager is a map from paths to byte
contents (an association list); `fs.copyFile` / `fs.rename` / `fs.unlink`
reject exactly when their source path is absent. -/

inductive DuplicateAction where
  | KEEP
  | DELETE
  | MOVE
  | RENAME
deriving DecidableEq, Repr, Inhabited

/-- Embeds `UndoOperation` (the wall-clock `timestamp` only feeds the
`getRecentOperations` sort and is omitted). -/
structure UndoOperation where
  id : String
  action : DuplicateAction
  originalPath : String
  backupPath : Option String
  newPath : Option String
deriving DecidableEq, Repr, Inhabited

def fsLookup (fs : List (String × String)) (p : String) : Option String :=
  (fs.find? (fun q => q.1 == p)).map Prod.snd

def fsRemove (fs : List (String × String)) (p : String) : List (String × String) :=
  fs.filter (fun q => !(q.1 == p))

/-- Embeds `fs.copyFile(src, dst)`: overwrite `dst` with the bytes of `src`,
reject when `src` does not exist. -/
def copyFile (fs : List (String × String)) (src dst : String) :
    Except Unit (List (String × String)) :=
  match fsLookup fs src with
  | none => .error ()
  | some c => .ok (mapSet dst c fs)

/-- Embeds `fs.rename(src, dst)`: move the entry, reject when `src` does not
exist. -/
def fsRename (fs : List (String × String)) (src dst : String) :
    Except Unit (List (String × String)) :=
  match fsLookup fs src with
  | none => .error ()
  | some c => .ok (mapSet dst c (fsRemove fs src))

/-- The undo manager's state: the filesystem it mutates plus the
persisted operations log (`saveHistory` persists `operations`, so the
log list is the durable log). -/
structure UndoState where
  fs : List (String × String)
  operations : List UndoOperation
deriving DecidableEq, Repr

/-- Embeds `UndoSystem.recordOperation`: for a Delete, `createBackup` copies the
original to the backup path before the entry is pushed; a failed copy
rejects and records nothing.  The generated id and the
timestamp-derived backup file name are passed in by the caller model. -/
def recordOperation (st : UndoState) (action : DuplicateAction)
    (originalPath : String) (newPath : Option String)
    (freshId backupName : String) : Except Unit UndoState :=
  if action = DuplicateAction.DELETE then
    match copyFile st.fs originalPath backupName with
    | .error _ => .error ()
    | .ok fs' =>
      .ok ⟨fs', st.operations ++
        [⟨freshId, action, originalPath, some backupName, newPath⟩]⟩
  else
    .ok ⟨st.fs, st.operations ++ [⟨freshId, action, originalPath, none, newPath⟩]⟩

/-- Embeds `UndoSystem.undoOperation`: locate the entry by id (`false` when
absent), reverse the filesystem effect, and only on success splice the
entry out of the log; any filesystem error is caught and yields `false`
with nothing mutated. -/
def undoOperation (st : UndoState) (operationId : String) : Bool × UndoState :=
  match st.operations.findIdx? (fun op => op.id == operationId) with
  | none => (false, st)
  | some i =>
    let op := st.operations.getD i default
    match op.action with
    | .DELETE =>
      match op.backupPath with
      | some bp =>
        match copyFile st.fs bp op.originalPath with
        | .error _ => (false, st)
        | .ok fs' => (true, ⟨fs', st.operations.eraseIdx i⟩)
      | none => (true, ⟨st.fs, st.operations.eraseIdx i⟩)
    | .MOVE =>
      match op.newPath with
      | some np =>
        match fsRename st.fs np op.originalPath with
        | .error _ => (false, st)
        | .ok fs' => (true, ⟨fs', st.operations.eraseIdx i⟩)
      | none => (true, ⟨st.fs, st.operations.eraseIdx i⟩)
    | .RENAME =>
      match op.newPath with
      | some np =>
        match fsRename st.fs np op.originalPath with
        | .error _ => (false, st)
        | .ok fs' => (true, ⟨fs', st.operations.eraseIdx i⟩)
      | none => (true, ⟨st.fs, st.operations.eraseIdx i⟩)
    | .KEEP => (false, st)

/-- Modelled from the spec: the Disposition & Mutation Executor's removal
of the original file once its backup exists (§4.5 "only after the copy
completes does the original get removed"); the executor component itself
is not among the sources under verification, only its undo side is. -/
def executorUnlink (st : UndoState) (p : String) : UndoState :=
  ⟨fsRemove st.fs p, st.operations⟩

/-! ### `shouldIgnoreFile` (`src/utils/file-utils.ts`)

The function builds `new RegExp(pattern.replace(/\./g, "\\.")
.replace(/\*/g, ".*").replace(/\?/g, "."))` and calls `.test` — an
unanchored search.  For the pattern alphabet in use (no unescaped regex
metacharacters besides `*` and `?`) the compiled regex is a sequence of
literals, `.` (any one character) and `.*` (any run). -/

inductive GTok where
  | lit (c : Char)
  | anyOne
  | anyRun
deriving DecidableEq, Repr

def globToks : List Char → List GTok
  | [] => []
  | c :: rest =>
    (if c = '*' then GTok.anyRun else if c = '?' then GTok.anyOne else GTok.lit c) ::
      globToks rest

/-- Run a residual matcher after skipping any (possibly empty) leading
run of characters — the semantics of `.*`. -/
def suffixAny (p : List Char → Bool) : List Char → Bool
  | [] => p []
  | c :: rest => p (c :: rest) || suffixAny p rest

/-- Does the token sequence match some leading segment of `s`? -/
def matchSome : List GTok → List Char → Bool
  | [], _ => true
  | GTok.lit c :: ts, s =>
    (match s with
      | d :: ds => (c == d) && matchSome ts ds
      | [] => false)
  | GTok.anyOne :: ts, s =>
    (match s with
      | _ :: ds => matchSome ts ds
      | [] => false)
  | GTok.anyRun :: ts, s => suffixAny (matchSome ts) s

/-- Embeds `RegExp.prototype.test` for an unanchored pattern: try a match at
every start position. -/
def regexTestUnanchored (toks : List GTok) : List Char → Bool
  | [] => matchSome toks []
  | c :: rest => matchSome toks (c :: rest) || regexTestUnanchored toks rest

def normalizeSlashes (s : List Char) : List Char :=
  s.map (fun c => if c = '\\' then '/' else c)

/-- Embeds `shouldIgnoreFile(filePath, ignorePatterns)`. -/
def shouldIgnoreFile (filePath : String) (ignorePatterns : List String) : Bool :=
  ignorePatterns.any (fun pat =>
    regexTestUnanchored (globToks pat.data) (normalizeSlashes filePath.data))

/-! ### GitignoreParser (`src/utils/gitignore-parser.ts`)

`patternToRegex` escapes regex specials, maps `?` to `[^/]`, `**` to
`.*` and `*` to `[^/]*`, and wraps the body in `(^|/) ... (/.*)?$`
(anchored `^ ... (/.*)?$` when the pattern starts with `/`). -/

inductive IgTok where
  | lit (c : Char)
  | oneNonSlash
  | runAny
  | runNonSlash
deriving DecidableEq, Repr

def igToks : List Char → List IgTok
  | [] => []
  | '*' :: '*' :: rest => IgTok.runAny :: igToks rest
  | '*' :: rest => IgTok.runNonSlash :: igToks rest
  | '?' :: rest => IgTok.oneNonSlash :: igToks rest
  | c :: rest => IgTok.lit c :: igToks rest

/-- The `(/.*)?$` tail: the remainder is empty or continues with `/`. -/
def endOk : List Char → Bool
  | [] => true
  | c :: _ => c == '/'

/-- Run a residual matcher after skipping any (possibly empty) leading
run of non-slash characters — the semantics of `[^/]*`. -/
def noSlashPre (p : List Char → Bool) : List Char → Bool
  | [] => p []
  | c :: rest => p (c :: rest) || ((c != '/') && noSlashPre p rest)

/-- Match the translated body against a leading segment of `s`, the
remainder being accepted by `(/.*)?$`. -/
def matchTail : List IgTok → List Char → Bool
  | [], s => endOk s
  | IgTok.lit c :: ts, s =>
    (match s with
      | d :: ds => (c == d) && matchTail ts ds
      | [] => false)
  | IgTok.oneNonSlash :: ts, s =>
    (match s with
      | d :: ds => (d != '/') && matchTail ts ds
      | [] => false)
  | IgTok.runAny :: ts, s => suffixAny (matchTail ts) s
  | IgTok.runNonSlash :: ts, s => noSlashPre (matchTail ts) s

/-- The `(^|/)` alternative taken with `/`: the body starts right after
some `/` occurring in the path. -/
def afterSlash (toks : List IgTok) : List Char → Bool
  | [] => false
  | c :: rest => ((c == '/') && matchTail toks rest) || afterSlash toks rest

structure GitignoreRule where
  pattern : List Char
  isNegation : Bool
  isDirectory : Bool
deriving DecidableEq, Repr

/-- Embeds `rule.regex.test(path)`. -/
def ruleTest (rule : GitignoreRule) (path : List Char) : Bool :=
  match rule.pattern with
  | '/' :: body => matchTail (igToks body) path
  | body => matchTail (igToks body) path || afterSlash (igToks body) path

/-- Embeds `GitignoreParser.parseRule` on an already trimmed, nonempty,
non-comment line (regex construction cannot fail for these patterns). -/
def parseRule (line : List Char) : Option GitignoreRule :=
  let isNeg := line.head? == some '!'
  let p1 := if isNeg then line.tail else line
  let isDir := p1.getLast? == some '/'
  let p2 := if isDir then p1.dropLast else p1
  some { pattern := p2, isNegation := isNeg, isDirectory := isDir }

/-- Embeds `GitignoreParser.shouldIgnore(filePath, isDirectory)`: fold over the
rules in order; directory rules are skipped for non-directories; a
matching rule sets or clears the ignored flag according to its negation
bit. -/
def shouldIgnore (rules : List GitignoreRule) (filePath : List Char)
    (isDirectory : Bool) : Bool :=
  rules.foldl (fun isIgnored rule =>
    if rule.isDirectory && !isDirectory then isIgnored
    else if ruleTest rule (normalizeSlashes filePath) then
      (if rule.isNegation then false else true)
    else isIgnored) false

/-! ### FileScanner walker (`getFilePathsNative`)

Directory entries as the walker sees them; paths are char lists relative
to the scan root.  Symbolic links are not modelled (the claims do not
involve them). -/

inductive WEntry where
  | file (name : List Char)
  | dir (name : List Char) (entries : List WEntry)

def wname : WEntry → List Char
  | .file n => n
  | .dir n _ => n

def isDirE : WEntry → Bool
  | .file _ => false
  | .dir _ _ => true

def joinRelC (pre n : List Char) : List Char :=
  if pre = [] then n else pre ++ '/' :: n

def hiddenName (n : List Char) : Bool := n.head? == some '.'

/-- Embeds `maxDepth && currentDepth >= maxDepth` with JS truthiness (an unset
or zero `maxDepth` never limits). -/
def depthLimited (maxDepth : Option Nat) (depth : Nat) : Bool :=
  match maxDepth with
  | some d => decide (0 < d) && decide (d ≤ depth)
  | none => false

mutual

/-- Embeds `scanDirectory(directory, currentDepth)` of `getFilePathsNative`:
depth check, then per entry: hidden skip, combined-gitignore skip
(tested on the path relative to the scan root), emit, recurse into
directories. -/
def scanDirectory (rules : List GitignoreRule) (includeHidden : Bool)
    (maxDepth : Option Nat) :
    List Char → Nat → List WEntry → List (List Char)
  | pre, depth, entries =>
    if depthLimited maxDepth depth then []
    else scanEntries rules includeHidden maxDepth pre depth entries
termination_by _ _ entries => sizeOf entries + 1

def scanEntries (rules : List GitignoreRule) (includeHidden : Bool)
    (maxDepth : Option Nat) :
    List Char → Nat → List WEntry → List (List Char)
  | _, _, [] => []
  | pre, depth, .file n :: rest =>
    (if !includeHidden && hiddenName n then []
     else if shouldIgnore rules (joinRelC pre n) false then []
     else [joinRelC pre n]) ++
      scanEntries rules includeHidden maxDepth pre depth rest
  | pre, depth, .dir n es :: rest =>
    (if !includeHidden && hiddenName n then []
     else if shouldIgnore rules (joinRelC pre n) true then []
     else joinRelC pre n ::
       scanDirectory rules includeHidden maxDepth (joinRelC pre n) (depth + 1) es) ++
      scanEntries rules includeHidden maxDepth pre depth rest
termination_by _ _ l => sizeOf l

end

/-- The two root-level rules of the C9 scenario, parsed exactly as
`GitignoreParser.fromContent` would parse the lines `build/` and
`!build/keep.txt`. -/
def c9rules : List GitignoreRule :=
  List.filterMap parseRule ["build/".data, "!build/keep.txt".data]

mutual

/-- Well-formedness of walker entries as a real filesystem guarantees:
entry names are nonempty and contain no path separator. -/
def wfW : WEntry → Bool
  | .file n => !n.isEmpty && n.all (fun c => c != '/')
  | .dir n es => !n.isEmpty && n.all (fun c => c != '/') && wfWAll es

def wfWAll : List WEntry → Bool
  | [] => true
  | e :: rest => wfW e && wfWAll rest

end

/-- Boolean "is a leading segment of" test on char lists. -/
def leadsWith : List Char → List Char → Bool
  | [], _ => true
  | _ :: _, [] => false
  | a :: as, b :: bs => a == b && leadsWith as bs

/-- The whole walk from the scan root. -/
def walk (rules : List GitignoreRule) (includeHidden : Bool)
    (maxDepth : Option Nat) (entries : List WEntry) : List (List Char) :=
  scanDirectory rules includeHidden maxDepth [] 0 entries

/-! ### FileScanner.scan

The per-path loop over the walker's output: config-pattern filter, stat,
then hash for nonempty regular files.  The `try`/`catch` wraps both the
stat and the hash, and a caught error `continue`s without pushing the
file.  A scan-time path is summarized by what the filesystem would
answer for it: its metadata and the outcome of `calculateFileHash`
(`none` = the read/hash stream errored). -/

structure ScanEntry where
  path : String
  name : String
  size : Nat
  isDirectory : Bool
  hashOutcome : Option String
deriving DecidableEq, Repr, Inhabited

structure ScanResultM where
  files : List FileMetadata
  directories : List FileMetadata
  totalSize : Nat
deriving DecidableEq, Repr, Inhabited

def scanStep (ignorePatterns : List String) (acc : ScanResultM) (e : ScanEntry) :
    ScanResultM :=
  if shouldIgnoreFile e.path ignorePatterns then acc
  else if e.isDirectory then
    { acc with directories := acc.directories ++ [⟨e.path, e.name, e.size, true, none⟩] }
  else if 0 < e.size then
    match e.hashOutcome with
    | none => acc
    | some h =>
      { acc with files := acc.files ++ [⟨e.path, e.name, e.size, false, some h⟩],
                 totalSize := acc.totalSize + e.size }
  else
    { acc with files := acc.files ++ [⟨e.path, e.name, e.size, false, none⟩],
               totalSize := acc.totalSize + e.size }

/-- Embeds `FileScanner.scan` over the listed paths. -/
def scan (ignorePatterns : List String) (entries : List ScanEntry) : ScanResultM :=
  entries.foldl (scanStep ignorePatterns) ⟨[], [], 0⟩

/-! ## Theorems -/

theorem gLookup_insertGrp {K α : Type} [DecidableEq K] (k k' : K) (f : α)
    (gs : List (K × List α)) :
    gLookup (insertGrp k f gs) k' =
      if k' = k then some ((gLookup gs k).getD [] ++ [f]) else gLookup gs k' := by
  induction gs with
  | nil =>
    by_cases h : k' = k
    · subst h; simp [insertGrp, gLookup]
    · have h2 : ¬ k = k' := fun hh => h hh.symm
      simp [insertGrp, gLookup, h, h2]
  | cons p gs ih =>
    by_cases hpk : p.1 = k
    · subst hpk
      by_cases h : k' = p.1
      · subst h
        simp [insertGrp, gLookup]
      · have h2 : ¬ p.1 = k' := fun hh => h hh.symm
        simp [insertGrp, gLookup, h, h2]
    · by_cases hp : p.1 = k'
      · have hk'k : ¬ k' = k := fun hh => hpk (hp.trans hh)
        simp [insertGrp, gLookup, hpk, hp, hk'k]
      · simp only [insertGrp, if_neg hpk, gLookup, if_neg hp]
        rw [ih]

theorem gLookup_groupStep {K α : Type} [DecidableEq K] (key : α → Option K)
    (l : List α) :
    ∀ (gs : List (K × List α)) (k : K),
      (gLookup (l.foldl (fun acc f => match key f with
          | some k' => insertGrp k' f acc
          | none => acc) gs) k).getD [] =
        (gLookup gs k).getD [] ++ l.filter (fun f => key f = some k) := by
  induction l with
  | nil => intro gs k; simp
  | cons f rest ih =>
    intro gs k
    cases hkf : key f with
    | none =>
      simp only [List.foldl_cons, hkf, List.filter_cons]
      rw [ih gs k]
      simp [hkf]
    | some k0 =>
      by_cases hk : k0 = k
      · subst hk
        simp only [List.foldl_cons, hkf, List.filter_cons]
        rw [ih (insertGrp k0 f gs) k0, gLookup_insertGrp, if_pos rfl]
        simp [hkf]
      · simp only [List.foldl_cons, hkf, List.filter_cons]
        rw [ih (insertGrp k0 f gs) k, gLookup_insertGrp,
          if_neg (fun h => hk h.symm)]
        simp [hkf, hk]

theorem gLookup_eq_none_step {K α : Type} [DecidableEq K] (key : α → Option K)
    (l : List α) :
    ∀ (gs : List (K × List α)) (k : K),
      (gLookup (l.foldl (fun acc f => match key f with
          | some k' => insertGrp k' f acc
          | none => acc) gs) k) = none ↔
        gLookup gs k = none ∧ l.filter (fun f => key f = some k) = [] := by
  induction l with
  | nil => intro gs k; simp
  | cons f rest ih =>
    intro gs k
    cases hkf : key f with
    | none =>
      simp only [List.foldl_cons, hkf, List.filter_cons]
      rw [ih gs k]
      simp [hkf]
    | some k0 =>
      by_cases hk : k0 = k
      · subst hk
        simp only [List.foldl_cons, hkf, List.filter_cons]
        rw [ih (insertGrp k0 f gs) k0, gLookup_insertGrp, if_pos rfl]
        simp [hkf]
      · simp only [List.foldl_cons, hkf, List.filter_cons]
        rw [ih (insertGrp k0 f gs) k, gLookup_insertGrp,
          if_neg (fun h => hk h.symm)]
        simp [hkf, hk]

theorem gLookup_of_mem {K α : Type} [DecidableEq K]
    {gs : List (K × List α)} {k : K} {fs : List α}
    (hmem : (k, fs) ∈ gs) (hnd : (gs.map Prod.fst).Nodup) :
    gLookup gs k = some fs := by
  induction gs with
  | nil => cases hmem
  | cons p gs ih =>
    simp only [List.map_cons, List.nodup_cons] at hnd
    rcases List.mem_cons.mp hmem with h | h
    · subst h; simp [gLookup]
    · have hk : ¬ p.1 = k := by
        intro he
        refine hnd.1 ?_
        rw [he]
        exact List.mem_map.mpr ⟨(k, fs), h, rfl⟩
      simp only [gLookup, if_neg hk]
      exact ih h hnd.2

theorem mem_of_gLookup {K α : Type} [DecidableEq K]
    {gs : List (K × List α)} {k : K} {fs : List α}
    (h : gLookup gs k = some fs) : (k, fs) ∈ gs := by
  induction gs with
  | nil => cases h
  | cons p gs ih =>
    simp only [gLookup] at h
    by_cases hk : p.1 = k
    · rw [if_pos hk] at h
      injection h with h2
      refine List.mem_cons.mpr (Or.inl ?_)
      obtain ⟨a, b⟩ := p
      simp_all
    · rw [if_neg hk] at h
      exact List.mem_cons_of_mem _ (ih h)

theorem insertGrp_keys {K α : Type} [DecidableEq K] (k : K) (f : α)
    (gs : List (K × List α)) :
    (insertGrp k f gs).map Prod.fst =
      if k ∈ gs.map Prod.fst then gs.map Prod.fst else gs.map Prod.fst ++ [k] := by
  induction gs with
  | nil => simp [insertGrp]
  | cons p gs ih =>
    simp only [insertGrp]
    by_cases hpk : p.1 = k
    · subst hpk; simp
    · simp only [if_neg hpk, List.map_cons, ih, List.mem_cons]
      have : ¬ k = p.1 := fun h => hpk h.symm
      by_cases hmem : k ∈ gs.map Prod.fst <;> simp [hmem, this]

theorem groupByKey_keys_nodup {K α : Type} [DecidableEq K] (key : α → Option K)
    (l : List α) : ((groupByKey key l).map Prod.fst).Nodup := by
  suffices h : ∀ gs : List (K × List α), (gs.map Prod.fst).Nodup →
      ((l.foldl (fun acc f => match key f with
        | some k' => insertGrp k' f acc
        | none => acc) gs).map Prod.fst).Nodup by
    exact h [] (by simp)
  induction l with
  | nil => intro gs hnd; simpa
  | cons f rest ih =>
    intro gs hnd
    simp only [List.foldl_cons]
    cases hkf : key f with
    | none => simp only [hkf]; exact ih gs hnd
    | some k0 =>
      simp only [hkf]
      refine ih _ ?_
      rw [insertGrp_keys]
      by_cases hmem : k0 ∈ gs.map Prod.fst
      · simpa [hmem]
      · rw [if_neg hmem]
        simpa [List.nodup_append, hmem] using hnd

/-- Every group produced by `groupByKey` is exactly the filter of the input
by its key. -/
theorem groupByKey_mem_filter {K α : Type} [DecidableEq K] {key : α → Option K}
    {l : List α} {k : K} {fs : List α}
    (hmem : (k, fs) ∈ groupByKey key l) :
    fs = l.filter (fun f => key f = some k) := by
  have hlk := gLookup_of_mem hmem (groupByKey_keys_nodup key l)
  have := gLookup_groupStep key l [] k
  simp only [groupByKey] at hlk
  rw [hlk] at this
  simpa using this

/-- Every key with a nonempty filter shows up as a group in `groupByKey`. -/
theorem groupByKey_complete {K α : Type} [DecidableEq K] {key : α → Option K}
    {l : List α} {k : K}
    (hne : l.filter (fun f => key f = some k) ≠ []) :
    (k, l.filter (fun f => key f = some k)) ∈ groupByKey key l := by
  have hnotnone : gLookup (groupByKey key l) k ≠ none := by
    intro h
    have := (gLookup_eq_none_step key l [] k).mp (by simpa [groupByKey] using h)
    exact hne this.2
  cases hcase : gLookup (groupByKey key l) k with
  | none => exact absurd hcase hnotnone
  | some fs =>
    have hm := mem_of_gLookup hcase
    have := groupByKey_mem_filter hm
    exact this ▸ hm

theorem listCharLe_cons_iff (x y : Char) (as bs : List Char) :
    listCharLe (x :: as) (y :: bs) = true ↔
      (x.toNat < y.toNat ∨ (x.toNat = y.toNat ∧ listCharLe as bs = true)) := by
  simp only [listCharLe]
  split_ifs with h1 h2
  · simp only [Nat.blt_eq] at h1
    exact iff_of_true rfl (Or.inl h1)
  · simp only [Nat.blt_eq] at h1 h2
    refine iff_of_false (by simp) ?_
    rintro (h | ⟨h, -⟩) <;> omega
  · simp only [Nat.blt_eq] at h1 h2
    have hx : x.toNat = y.toNat := by omega
    simp [hx]

theorem listCharLe_total : ∀ (a b : List Char),
    listCharLe a b = true ∨ listCharLe b a = true := by
  intro a
  induction a with
  | nil => intro b; left; rfl
  | cons x as ih =>
    intro b
    cases b with
    | nil => right; rfl
    | cons y bs =>
      rcases Nat.lt_trichotomy x.toNat y.toNat with h | h | h
      · left; exact (listCharLe_cons_iff _ _ _ _).mpr (Or.inl h)
      · rcases ih bs with h' | h'
        · left; exact (listCharLe_cons_iff _ _ _ _).mpr (Or.inr ⟨h, h'⟩)
        · right; exact (listCharLe_cons_iff _ _ _ _).mpr (Or.inr ⟨h.symm, h'⟩)
      · right; exact (listCharLe_cons_iff _ _ _ _).mpr (Or.inl h)

theorem listCharLe_trans : ∀ (a b c : List Char), listCharLe a b = true →
    listCharLe b c = true → listCharLe a c = true := by
  intro a
  induction a with
  | nil => intro b c _ _; rfl
  | cons x as ih =>
    intro b c hab hbc
    cases b with
    | nil => cases hab
    | cons y bs =>
      cases c with
      | nil => cases hbc
      | cons z cs =>
        rw [listCharLe_cons_iff] at hab hbc ⊢
        rcases hab with h | ⟨he, h⟩ <;> rcases hbc with h' | ⟨he', h'⟩
        · exact Or.inl (h.trans h')
        · exact Or.inl (he' ▸ h)
        · exact Or.inl (he ▸ h')
        · exact Or.inr ⟨he.trans he', ih bs cs h h'⟩

theorem listCharLe_antisymm : ∀ (a b : List Char), listCharLe a b = true →
    listCharLe b a = true → a = b := by
  intro a
  induction a with
  | nil => intro b hab hba; cases b with
    | nil => rfl
    | cons y bs => cases hba
  | cons x as ih =>
    intro b hab hba
    cases b with
    | nil => cases hab
    | cons y bs =>
      rw [listCharLe_cons_iff] at hab hba
      rcases hab with h | ⟨he, h⟩ <;> rcases hba with h' | ⟨he', h'⟩
      · omega
      · omega
      · omega
      · have hxy : x = y := Char.ext (UInt32.ext he)
        subst hxy
        exact congrArg (List.cons x) (ih bs h h')

theorem strLe_total (a b : String) : strLe a b = true ∨ strLe b a = true :=
  listCharLe_total a.data b.data

theorem strLe_trans {a b c : String} (h1 : strLe a b = true) (h2 : strLe b c = true) :
    strLe a c = true :=
  listCharLe_trans a.data b.data c.data h1 h2

theorem strLe_antisymm {a b : String} (h1 : strLe a b = true)
    (h2 : strLe b a = true) : a = b := by
  cases a with
  | mk da =>
    cases b with
    | mk db =>
      exact congrArg String.mk (listCharLe_antisymm da db h1 h2)

/-- Sorting entry pairs by a stringification is invariant under
permutation of the input when the stringifications are distinct on it
(insertion order into a `Map` cannot influence the sorted entry
sequence). -/
theorem sortByStr_eq_of_perm {β : Type} (f : String × β → String)
    {l₁ l₂ : List (String × β)}
    (hp : l₁.Perm l₂) (hnd : (l₁.map f).Nodup) :
    sortByStr f l₁ = sortByStr f l₂ := by
  haveI : IsTotal (String × β) (fun p q => strLe (f p) (f q) = true) :=
    ⟨fun a b => strLe_total (f a) (f b)⟩
  haveI : IsTrans (String × β) (fun p q => strLe (f p) (f q) = true) :=
    ⟨fun _ _ _ h1 h2 => strLe_trans h1 h2⟩
  haveI : IsAntisymm (String × β)
      (fun p q => strLe (f p) (f q) = true ∧ f p ≠ f q) :=
    ⟨fun _ _ h1 h2 => absurd (strLe_antisymm h1.1 h2.1) h1.2⟩
  have hperm : (sortByStr f l₁).Perm (sortByStr f l₂) :=
    ((List.perm_insertionSort _ l₁).trans hp).trans
      (List.perm_insertionSort _ l₂).symm
  have hs₁ : (sortByStr f l₁).Sorted (fun p q => strLe (f p) (f q) = true) :=
    List.sorted_insertionSort _ l₁
  have hs₂ : (sortByStr f l₂).Sorted (fun p q => strLe (f p) (f q) = true) :=
    List.sorted_insertionSort _ l₂
  have hnd₁ : ((sortByStr f l₁).map f).Nodup :=
    (((List.perm_insertionSort _ l₁)).map f).nodup_iff.mpr hnd
  have hnd₂ : ((sortByStr f l₂).map f).Nodup :=
    (hperm.map f).symm.nodup_iff.mpr hnd₁
  refine @List.eq_of_perm_of_sorted _
    (fun p q : String × β => strLe (f p) (f q) = true ∧ f p ≠ f q) _ _ _ hperm ?_ ?_
  · exact hs₁.and ((List.pairwise_map.mp hnd₁).imp (fun h => h))
  · exact hs₂.and ((List.pairwise_map.mp hnd₂).imp (fun h => h))

theorem strDataInj {a b : String} (h : a.data = b.data) : a = b := by
  cases a
  cases b
  exact congrArg String.mk h

theorem append_comma_inj : ∀ (a b u w : List Char), ',' ∉ u → ',' ∉ w →
    a ++ ',' :: u = b ++ ',' :: w → a = b := by
  intro a
  induction a with
  | nil =>
    intro b u w hu hw h
    cases b with
    | nil => rfl
    | cons d b' =>
      rw [List.nil_append, List.cons_append] at h
      injection h with h1 h2
      exact absurd (h2 ▸ List.mem_append_right b' (List.mem_cons_self ',' w)) hu
  | cons c a' ih =>
    intro b u w hu hw h
    cases b with
    | nil =>
      rw [List.cons_append, List.nil_append] at h
      injection h with h1 h2
      exact absurd (h2 ▸ List.mem_append_right a' (List.mem_cons_self ',' u)) hw
    | cons d b' =>
      rw [List.cons_append, List.cons_append] at h
      injection h with h1 h2
      rw [h1, ih b' u w hu hw h2]

/-- When the values carry no comma (the program's values are hex
digests), equal pair stringifications force equal keys: the separator is
the last comma of the stringification. -/
theorem pairStr_eq_key_eq {p q : String × String}
    (hu : ',' ∉ p.2.data) (hw : ',' ∉ q.2.data)
    (h : pairStr p = pairStr q) : p.1 = q.1 := by
  have hd := congrArg String.data h
  unfold pairStr at hd
  simp only [String.data_append,
    show ("," : String).data = [','] from rfl] at hd
  rw [List.append_assoc, List.append_assoc, List.singleton_append,
    List.singleton_append] at hd
  exact strDataInj (append_comma_inj _ _ _ _ hu hw hd)

theorem dirPairStr_eq_key_eq {p q : String × String}
    (h : dirPairStr p = dirPairStr q) : p.1 = q.1 := by
  have hd := congrArg String.data h
  unfold dirPairStr at hd
  simp only [String.data_append] at hd
  exact strDataInj (List.append_cancel_right hd)

theorem pairStr_nodup {l : List (String × String)}
    (hk : (l.map Prod.fst).Nodup) (hv : ∀ p ∈ l, ',' ∉ p.2.data) :
    (l.map pairStr).Nodup := by
  have hpw : l.Pairwise (fun a b => a.1 ≠ b.1) :=
    (List.pairwise_map.mp hk).imp (fun h => h)
  have hout : l.Pairwise (fun a b => pairStr a ≠ pairStr b) := by
    refine hpw.imp_of_mem ?_
    intro a b ha hb hne heq
    exact hne (pairStr_eq_key_eq (hv a ha) (hv b hb) heq)
  exact List.pairwise_map.mpr hout

theorem dirPairStr_nodup {l : List (String × String)}
    (hk : (l.map Prod.fst).Nodup) : (l.map dirPairStr).Nodup := by
  have hpw : l.Pairwise (fun a b => a.1 ≠ b.1) :=
    (List.pairwise_map.mp hk).imp (fun h => h)
  have hout : l.Pairwise (fun a b => dirPairStr a ≠ dirPairStr b) := by
    refine hpw.imp_of_mem ?_
    intro a b _ _ hne heq
    exact hne (dirPairStr_eq_key_eq heq)
  exact List.pairwise_map.mpr hout

theorem filter_name_decongr (files : List FileMetadata) (n : String) :
    files.filter (fun f => some f.name = some n) =
      files.filter (fun f => f.name = n) :=
  List.filter_congr (by intro f _; simp)

/-- C6: name-based grouping groups files by exact, case-sensitive base
name (each emitted group is precisely the sublist of input files bearing
one shared name), a group is emitted exactly when at least 2 files share
the name, and reclaimable bytes are the sum of member sizes minus the
maximum member size. -/
theorem nameBased_groups_correct (files : List FileMetadata) :
    (∀ g ∈ findNameBasedDuplicates files,
      2 ≤ g.files.length ∧
      g.type = DuplicateType.NAME_BASED ∧
      (∃ n, (∀ f ∈ g.files, f.name = n) ∧
        g.files = files.filter (fun f => f.name = n)) ∧
      g.totalSize = sumSizes g.files ∧
      g.potentialSavings = sumSizes g.files - maxSize g.files) ∧
    (∀ n : String, 2 ≤ (files.filter (fun f => f.name = n)).length →
      ∃ g ∈ findNameBasedDuplicates files,
        g.files = files.filter (fun f => f.name = n)) := by
  constructor
  · intro g hg
    rcases List.mem_filterMap.mp hg with ⟨p, hp, hpg⟩
    by_cases hlen : 1 < p.2.length
    · rw [if_pos hlen] at hpg
      injection hpg with hpg
      subst hpg
      obtain ⟨k, fs⟩ := p
      have hfil := groupByKey_mem_filter hp
      rw [filter_name_decongr] at hfil
      refine ⟨by simpa using hlen, rfl, ⟨k, ?_, hfil⟩, rfl, rfl⟩
      intro f hf
      rw [hfil] at hf
      simpa using (List.mem_filter.mp hf).2
    · rw [if_neg hlen] at hpg
      cases hpg
  · intro n hlen
    have hne : files.filter (fun f => some f.name = some n) ≠ [] := by
      rw [filter_name_decongr]
      intro hemp
      rw [hemp] at hlen
      simp at hlen
    have hmem := @groupByKey_complete String FileMetadata _
      (fun f => some f.name) files n hne
    have hlen' : 1 < (files.filter (fun f => some f.name = some n)).length := by
      rw [filter_name_decongr]; omega
    refine ⟨{ type := .NAME_BASED,
              files := files.filter (fun f => some f.name = some n),
              totalSize := sumSizes (files.filter (fun f => some f.name = some n)),
              potentialSavings :=
                sumSizes (files.filter (fun f => some f.name = some n)) -
                  maxSize (files.filter (fun f => some f.name = some n)) },
      ?_, filter_name_decongr files n⟩
    exact List.mem_filterMap.mpr
      ⟨(n, files.filter (fun f => some f.name = some n)), hmem, by rw [if_pos hlen']⟩

/-- C6 witness: two files named `x` of sizes 5 and 7 form one name group
with reclaimable bytes 12 − 7 = 5. -/
theorem nameBased_groups_correct_witness :
    (∃ g ∈ findNameBasedDuplicates
        [⟨"a/x", "x", 5, false, none⟩, ⟨"b/x", "x", 7, false, none⟩],
      g.files = List.filter (fun f => f.name = "x")
        [⟨"a/x", "x", 5, false, none⟩, ⟨"b/x", "x", 7, false, none⟩]) ∧
    (findNameBasedDuplicates
        [⟨"a/x", "x", 5, false, none⟩, ⟨"b/x", "x", 7, false, none⟩]).map
      (fun g => g.potentialSavings) = [5] :=
  ⟨(nameBased_groups_correct
      [⟨"a/x", "x", 5, false, none⟩, ⟨"b/x", "x", 7, false, none⟩]).2
    "x" (by decide), by decide⟩

/-- C5: content-based grouping considers only fingerprinted files, keys
groups by fingerprint (each emitted group is precisely the sublist of
input files carrying one shared fingerprint, in traversal order), a
group is emitted exactly when at least 2 files share the fingerprint,
and reclaimable bytes are the sum of member sizes minus the size of the
first member. -/
theorem contentBased_groups_correct (files : List FileMetadata) :
    (∀ g ∈ findContentBasedDuplicates files,
      2 ≤ g.files.length ∧
      g.type = DuplicateType.CONTENT_BASED ∧
      (∃ h, (∀ f ∈ g.files, f.hash = some h) ∧
        g.files = files.filter (fun f => f.hash = some h)) ∧
      g.totalSize = sumSizes g.files ∧
      g.potentialSavings = sumSizes g.files - (g.files.headD default).size) ∧
    (∀ h : String, 2 ≤ (files.filter (fun f => f.hash = some h)).length →
      ∃ g ∈ findContentBasedDuplicates files,
        g.files = files.filter (fun f => f.hash = some h)) := by
  constructor
  · intro g hg
    rcases List.mem_filterMap.mp hg with ⟨p, hp, hpg⟩
    by_cases hlen : 1 < p.2.length
    · rw [if_pos hlen] at hpg
      injection hpg with hpg
      subst hpg
      obtain ⟨k, fs⟩ := p
      have hfil := groupByKey_mem_filter hp
      refine ⟨by simpa using hlen, rfl, ⟨k, ?_, hfil⟩, rfl, rfl⟩
      intro f hf
      rw [hfil] at hf
      simpa using (List.mem_filter.mp hf).2
    · rw [if_neg hlen] at hpg
      cases hpg
  · intro h hlen
    have hne : files.filter (fun f => f.hash = some h) ≠ [] := by
      intro hemp
      rw [hemp] at hlen
      simp at hlen
    have hmem := @groupByKey_complete String FileMetadata _
      (fun f => f.hash) files h hne
    refine ⟨{ type := .CONTENT_BASED,
              files := files.filter (fun f => f.hash = some h),
              totalSize := sumSizes (files.filter (fun f => f.hash = some h)),
              potentialSavings :=
                sumSizes (files.filter (fun f => f.hash = some h)) -
                  ((files.filter (fun f => f.hash = some h)).headD default).size },
      ?_, rfl⟩
    exact List.mem_filterMap.mpr
      ⟨(h, files.filter (fun f => f.hash = some h)), hmem,
        by rw [if_pos (show 1 < (files.filter (fun f => f.hash = some h)).length
            by omega)]⟩

/-- C5 witness: three fingerprint-equal files of size 10 each form one
content group with reclaimable bytes 30 − 10 = 20. -/
theorem contentBased_groups_correct_witness :
    (∃ g ∈ findContentBasedDuplicates
        [⟨"a", "a", 10, false, some "H"⟩, ⟨"b", "b", 10, false, some "H"⟩,
         ⟨"c", "c", 10, false, some "H"⟩],
      g.files = List.filter (fun f => f.hash = some "H")
        [⟨"a", "a", 10, false, some "H"⟩, ⟨"b", "b", 10, false, some "H"⟩,
         ⟨"c", "c", 10, false, some "H"⟩]) ∧
    (findContentBasedDuplicates
        [⟨"a", "a", 10, false, some "H"⟩, ⟨"b", "b", 10, false, some "H"⟩,
         ⟨"c", "c", 10, false, some "H"⟩]).map
      (fun g => (g.totalSize, g.potentialSavings)) = [(30, 20)] :=
  ⟨(contentBased_groups_correct
      [⟨"a", "a", 10, false, some "H"⟩, ⟨"b", "b", 10, false, some "H"⟩,
       ⟨"c", "c", 10, false, some "H"⟩]).2 "H" (by decide), by decide⟩

theorem matchSome_lits (w s : List Char) :
    matchSome (w.map GTok.lit) s = true ↔ ∃ t, s = w ++ t := by
  induction w generalizing s with
  | nil => simp [matchSome]
  | cons c w ih =>
    cases s with
    | nil => simp [matchSome]
    | cons d ds =>
      simp only [List.map_cons, matchSome, Bool.and_eq_true, beq_iff_eq]
      rw [ih]
      constructor
      · rintro ⟨hc, t, ht⟩
        exact ⟨t, by simp [hc, ht]⟩
      · rintro ⟨t, ht⟩
        rw [List.cons_append] at ht
        injection ht with h1 h2
        exact ⟨h1.symm, t, h2⟩

theorem suffixAny_iff (p : List Char → Bool) (s : List Char) :
    suffixAny p s = true ↔ ∃ i, p (s.drop i) = true := by
  induction s with
  | nil =>
    constructor
    · intro h; exact ⟨0, h⟩
    · rintro ⟨i, h⟩
      simp only [List.drop_nil] at h
      exact h
  | cons c rest ih =>
    simp only [suffixAny, Bool.or_eq_true]
    rw [ih]
    constructor
    · rintro (h | ⟨i, h⟩)
      · exact ⟨0, h⟩
      · exact ⟨i + 1, h⟩
    · rintro ⟨i, hi⟩
      cases i with
      | zero => exact Or.inl hi
      | succ i => exact Or.inr ⟨i, hi⟩

theorem regexTest_iff (toks : List GTok) (s : List Char) :
    regexTestUnanchored toks s = true ↔
      ∃ i, matchSome toks (s.drop i) = true := by
  induction s with
  | nil =>
    constructor
    · intro h; exact ⟨0, h⟩
    · rintro ⟨i, h⟩
      simp only [List.drop_nil] at h
      exact h
  | cons c rest ih =>
    simp only [regexTestUnanchored, Bool.or_eq_true]
    rw [ih]
    constructor
    · rintro (h | ⟨i, h⟩)
      · exact ⟨0, h⟩
      · exact ⟨i + 1, h⟩
    · rintro ⟨i, hi⟩
      cases i with
      | zero => exact Or.inl hi
      | succ i => exact Or.inr ⟨i, hi⟩

/-- C10: the configured ignore check compiles each pattern to an
unanchored regex over the slash-normalized path (`.` escaped, `*` ↦
`.*`, `?` ↦ `.`), excluding a path whenever any pattern matches
anywhere in it; in particular `*.log` excludes exactly the paths
containing the substring `.log`, not only `.log`-extension files. -/
theorem shouldIgnoreFile_unanchored_substring (path : String)
    (patterns : List String) :
    (shouldIgnoreFile path patterns = true ↔
      ∃ pat ∈ patterns,
        regexTestUnanchored (globToks pat.data)
          (normalizeSlashes path.data) = true) ∧
    (shouldIgnoreFile path ["*.log"] = true ↔
      ∃ u v, normalizeSlashes path.data = u ++ ('.' :: 'l' :: 'o' :: 'g' :: v)) := by
  constructor
  · simp [shouldIgnoreFile, List.any_eq_true]
  · have htoks : globToks "*.log".data =
        GTok.anyRun :: (['.', 'l', 'o', 'g'].map GTok.lit) := rfl
    have hsif : shouldIgnoreFile path ["*.log"] =
        regexTestUnanchored (globToks "*.log".data)
          (normalizeSlashes path.data) := by
      simp [shouldIgnoreFile]
    rw [hsif, htoks, regexTest_iff]
    constructor
    · rintro ⟨i, hi⟩
      have hi' : suffixAny (matchSome (['.', 'l', 'o', 'g'].map GTok.lit))
          ((normalizeSlashes path.data).drop i) = true := hi
      rw [suffixAny_iff] at hi'
      rcases hi' with ⟨j, hj⟩
      rw [matchSome_lits, List.drop_drop] at hj
      rcases hj with ⟨t, ht⟩
      refine ⟨(normalizeSlashes path.data).take (i + j), t, ?_⟩
      conv_lhs =>
        rw [← List.take_append_drop (i + j) (normalizeSlashes path.data)]
      rw [ht]
      simp
    · rintro ⟨u, v, huv⟩
      refine ⟨u.length, ?_⟩
      show suffixAny (matchSome (['.', 'l', 'o', 'g'].map GTok.lit))
        ((normalizeSlashes path.data).drop u.length) = true
      rw [suffixAny_iff]
      refine ⟨0, ?_⟩
      rw [matchSome_lits]
      refine ⟨v, ?_⟩
      rw [List.drop_zero, huv, List.drop_left]
      rfl

/-- C10 witness: `a.login.txt` has no `.log` extension but contains the
substring `.log` and is excluded; `b.txt` is not. -/
theorem shouldIgnoreFile_unanchored_substring_witness :
    shouldIgnoreFile "a.login.txt" ["*.log"] = true ∧
      shouldIgnoreFile "b.txt" ["*.log"] = false :=
  ⟨(shouldIgnoreFile_unanchored_substring "a.login.txt" []).2.mpr
      ⟨['a'], ['i', 'n', '.', 't', 'x', 't'], rfl⟩,
    by decide⟩

theorem findIdxQ_none_aux {α : Type} (p : α → Bool) (l : List α)
    (hl : ∀ x ∈ l, p x = false) : ∀ i, List.findIdx? p l i = none := by
  induction l with
  | nil => intro i; rfl
  | cons x xs ih =>
    intro i
    have hx := hl x (List.mem_cons_self x xs)
    simp only [List.findIdx?, hx, Bool.false_eq_true, if_false]
    exact ih (fun y hy => hl y (List.mem_cons_of_mem x hy)) (i + 1)

theorem findIdxQ_append_aux {α : Type} (p : α → Bool) (l : List α) (a : α)
    (hl : ∀ x ∈ l, p x = false) (ha : p a = true) :
    ∀ i, List.findIdx? p (l ++ [a]) i = some (i + l.length) := by
  induction l with
  | nil => intro i; simp [List.findIdx?, ha]
  | cons x xs ih =>
    intro i
    have hx := hl x (List.mem_cons_self x xs)
    simp only [List.cons_append, List.findIdx?, hx, Bool.false_eq_true, if_false,
      List.append_eq]
    rw [ih (fun y hy => hl y (List.mem_cons_of_mem x hy)) (i + 1)]
    simp [Nat.add_comm, Nat.add_assoc, Nat.add_left_comm]

theorem eraseIdx_append_len {α : Type} (l : List α) (a : α) :
    (l ++ [a]).eraseIdx l.length = l := by
  induction l with
  | nil => rfl
  | cons x xs ih => simp [List.eraseIdx, ih]

theorem getD_append_len {α : Type} [Inhabited α] (l : List α) (a : α) :
    (l ++ [a]).getD l.length default = a := by
  induction l with
  | nil => rfl
  | cons x xs ih => simp [List.getD]

theorem fsLookup_mapSet_self (fs : List (String × String)) (k v : String) :
    fsLookup (mapSet k v fs) k = some v := by
  induction fs with
  | nil => simp [fsLookup, mapSet, List.find?]
  | cons q rest ih =>
    by_cases hq : q.1 = k
    · simp [fsLookup, mapSet, hq, List.find?]
    · have hq' : (q.1 == k) = false := by simpa using hq
      simp only [mapSet, if_neg hq, fsLookup, List.find?, hq']
      exact ih

theorem fsLookup_mapSet_ne (fs : List (String × String)) (k v q : String)
    (h : q ≠ k) : fsLookup (mapSet k v fs) q = fsLookup fs q := by
  have h1 : (k == q) = false := by simpa using fun hh => h hh.symm
  induction fs with
  | nil => simp [fsLookup, mapSet, List.find?, h1]
  | cons e rest ih =>
    by_cases he : e.1 = k
    · have h2 : (e.1 == q) = false := by rw [he]; exact h1
      simp [fsLookup, mapSet, he, List.find?, h1, h2]
    · simp only [mapSet, if_neg he, fsLookup, List.find?]
      cases heq : (e.1 == q)
      · exact ih
      · rfl

theorem fsLookup_fsRemove_ne (fs : List (String × String)) (p q : String)
    (h : q ≠ p) : fsLookup (fsRemove fs p) q = fsLookup fs q := by
  have h1 : (p == q) = false := by simpa using fun hh => h hh.symm
  induction fs with
  | nil => rfl
  | cons e rest ih =>
    by_cases hep : e.1 = p
    · have h2 : (e.1 == q) = false := by rw [hep]; exact h1
      have h3 : (e.1 == p) = true := by simpa using hep
      simp only [fsRemove, List.filter_cons, h3, Bool.not_true, if_false]
      rw [show fsLookup (e :: rest) q = fsLookup rest q by
        simp [fsLookup, List.find?, h2]]
      exact ih
    · have h3 : (e.1 == p) = false := by simpa using hep
      simp only [fsRemove, List.filter_cons, h3, Bool.not_false, if_pos]
      simp only [fsLookup, List.find?]
      cases he : (e.1 == q)
      · exact ih
      · rfl

/-- C8: reversing an undo-log entry whose Delete backup file or whose
Move/Rename destination file is missing fails (the reversal reports
failure — the program's `UndoNotFound` outcome), mutates neither the
filesystem nor the log, and leaves the entry intact in the log. -/
theorem undoOperation_missing_file_noop (st : UndoState) (oid : String)
    (i : Nat)
    (hfind : st.operations.findIdx? (fun op => op.id == oid) = some i)
    (hcase :
      ((st.operations.getD i default).action = DuplicateAction.DELETE ∧
        ∃ bp, (st.operations.getD i default).backupPath = some bp ∧
          fsLookup st.fs bp = none) ∨
      (((st.operations.getD i default).action = DuplicateAction.MOVE ∨
        (st.operations.getD i default).action = DuplicateAction.RENAME) ∧
        ∃ np, (st.operations.getD i default).newPath = some np ∧
          fsLookup st.fs np = none)) :
    undoOperation st oid = (false, st) := by
  unfold undoOperation
  rw [hfind]
  rcases hcase with ⟨hact, bp, hbp, hmiss⟩ | ⟨hact, np, hnp, hmiss⟩
  · simp only [hact, hbp, copyFile, hmiss]
  · rcases hact with hact | hact <;>
      simp only [hact, hnp, fsRename, hmiss]

/-- C8 witness: a Delete entry whose backup file is absent and a Move
entry whose destination is absent both fail and change nothing. -/
theorem undoOperation_missing_file_noop_witness :
    undoOperation ⟨[("other", "x")], [⟨"u1", DuplicateAction.DELETE, "orig",
        some "bk", none⟩]⟩ "u1" =
      (false, ⟨[("other", "x")], [⟨"u1", DuplicateAction.DELETE, "orig",
        some "bk", none⟩]⟩) ∧
    undoOperation ⟨[("other", "x")], [⟨"u2", DuplicateAction.MOVE, "orig",
        none, some "moved"⟩]⟩ "u2" =
      (false, ⟨[("other", "x")], [⟨"u2", DuplicateAction.MOVE, "orig",
        none, some "moved"⟩]⟩) :=
  ⟨undoOperation_missing_file_noop _ "u1" 0 (by decide)
      (Or.inl ⟨by decide, "bk", by decide, by decide⟩),
    undoOperation_missing_file_noop _ "u2" 0 (by decide)
      (Or.inr ⟨Or.inl (by decide), "moved", by decide, by decide⟩)⟩

/-- C1 (amended): recording a Delete of file `p` (content `c`) copies it
to the backup path; after the executor removes the original, undoing the
entry by id succeeds, restores `p` byte-identical to `c` from the backup
copy, removes the entry from the log — but leaves the backup file in
place — and a second undo of the same id fails (NotFound) leaving the
log unchanged. -/
theorem deleteUndo_restores_keeps_backup (fs0 : List (String × String))
    (ops0 : List UndoOperation) (p c oid bp : String)
    (hporig : fsLookup fs0 p = some c)
    (hbpne : bp ≠ p)
    (hfresh : ∀ op ∈ ops0, op.id ≠ oid) :
    ∃ st1 st3,
      recordOperation ⟨fs0, ops0⟩ DuplicateAction.DELETE p none oid bp =
        Except.ok st1 ∧
      undoOperation (executorUnlink st1 p) oid = (true, st3) ∧
      fsLookup st3.fs p = some c ∧
      fsLookup st3.fs bp = some c ∧
      st3.operations = ops0 ∧
      undoOperation st3 oid = (false, st3) := by
  have hfreshb : ∀ op ∈ ops0, (op.id == oid) = false := by
    intro op hop
    simpa using hfresh op hop
  refine ⟨⟨mapSet bp c fs0, ops0 ++ [⟨oid, .DELETE, p, some bp, none⟩]⟩,
    ⟨mapSet p c (fsRemove (mapSet bp c fs0) p), ops0⟩, ?_, ?_, ?_, ?_, rfl, ?_⟩
  · simp [recordOperation, copyFile, hporig]
  · have hfind : (ops0 ++ [(⟨oid, .DELETE, p, some bp, none⟩ : UndoOperation)]).findIdx?
        (fun op => op.id == oid) = some ops0.length := by
      simpa using findIdxQ_append_aux (fun op => op.id == oid) ops0
        ⟨oid, .DELETE, p, some bp, none⟩ hfreshb (by simp) 0
    simp only [executorUnlink, undoOperation, hfind]
    rw [getD_append_len]
    simp only [copyFile]
    rw [fsLookup_fsRemove_ne _ p bp hbpne, fsLookup_mapSet_self]
    simp only [eraseIdx_append_len]
  · show fsLookup (mapSet p c (fsRemove (mapSet bp c fs0) p)) p = some c
    rw [fsLookup_mapSet_self]
  · show fsLookup (mapSet p c (fsRemove (mapSet bp c fs0) p)) bp = some c
    rw [fsLookup_mapSet_ne _ _ _ _ hbpne,
      fsLookup_fsRemove_ne _ p bp hbpne, fsLookup_mapSet_self]
  · simp only [undoOperation, findIdxQ_none_aux _ ops0 hfreshb 0]

/-- C1 witness: the concrete delete-then-undo round trip on a one-file
filesystem. -/
theorem deleteUndo_restores_keeps_backup_witness :
    ∃ st1 st3,
      recordOperation ⟨[("orig", "data")], []⟩ DuplicateAction.DELETE "orig"
        none "u1" "bk" = Except.ok st1 ∧
      undoOperation (executorUnlink st1 "orig") "u1" = (true, st3) ∧
      fsLookup st3.fs "orig" = some "data" ∧
      fsLookup st3.fs "bk" = some "data" ∧
      st3.operations = [] ∧
      undoOperation st3 "u1" = (false, st3) :=
  deleteUndo_restores_keeps_backup [("orig", "data")] [] "orig" "data" "u1" "bk"
    (by decide) (by decide) (by intro op hop; cases hop)

/-- C1 counterexample: the claim says undoing a Delete "removes the
backup file", but after the successful undo the backup file is still
present on the filesystem (`undoOperation` never unlinks
`operation.backupPath`). -/
theorem deleteUndo_leaves_backup_counterexample :
    recordOperation ⟨[("orig", "data")], []⟩ DuplicateAction.DELETE "orig"
        none "u1" "bk" =
      Except.ok ⟨[("orig", "data"), ("bk", "data")],
        [⟨"u1", DuplicateAction.DELETE, "orig", some "bk", none⟩]⟩ ∧
    undoOperation (executorUnlink ⟨[("orig", "data"), ("bk", "data")],
        [⟨"u1", DuplicateAction.DELETE, "orig", some "bk", none⟩]⟩ "orig") "u1" =
      (true, ⟨[("bk", "data"), ("orig", "data")], []⟩) ∧
    fsLookup [("bk", "data"), ("orig", "data")] "bk" = some "data" := by
  refine ⟨rfl, ?_, by decide⟩
  rfl

theorem scan_files_source (patterns : List String) :
    ∀ (entries : List ScanEntry) (acc : ScanResultM),
      ∀ f ∈ (entries.foldl (scanStep patterns) acc).files,
        f ∈ acc.files ∨
          ∃ e ∈ entries, e.path = f.path ∧ e.name = f.name ∧
            e.isDirectory = false ∧
            (e.size = 0 ∨ ∃ h, e.hashOutcome = some h) := by
  intro entries
  induction entries with
  | nil => intro acc f hf; exact Or.inl hf
  | cons e rest ih =>
    intro acc f hf
    rw [List.foldl_cons] at hf
    rcases ih (scanStep patterns acc e) f hf with hacc | ⟨e', he', hprops⟩
    · unfold scanStep at hacc
      split_ifs at hacc with hig hdir hsz
      · exact Or.inl hacc
      · exact Or.inl hacc
      · cases hout : e.hashOutcome with
        | none => rw [hout] at hacc; exact Or.inl hacc
        | some h =>
          rw [hout] at hacc
          simp only [List.mem_append, List.mem_singleton] at hacc
          rcases hacc with hacc | hacc
          · exact Or.inl hacc
          · subst hacc
            exact Or.inr ⟨e, List.mem_cons_self e rest,
              rfl, rfl, by simpa using hdir, Or.inr ⟨h, hout⟩⟩
      · simp only [List.mem_append, List.mem_singleton] at hacc
        rcases hacc with hacc | hacc
        · exact Or.inl hacc
        · subst hacc
          exact Or.inr ⟨e, List.mem_cons_self e rest,
            rfl, rfl, by simpa using hdir, Or.inl (by omega)⟩
    · exact Or.inr ⟨e', List.mem_cons_of_mem e he', hprops⟩

/-- C7 (amended): when fingerprinting a nonempty file fails during the
scan, the catch block skips the file entirely — every file in the scan's
output either hashed successfully or was a zero-byte file, so a
hash-failed file appears in neither content-based nor name-based
grouping. -/
theorem scan_omits_hash_failures (patterns : List String)
    (entries : List ScanEntry) (f : FileMetadata)
    (hf : f ∈ (scan patterns entries).files) :
    ∃ e ∈ entries, e.path = f.path ∧ e.name = f.name ∧
      e.isDirectory = false ∧ (e.size = 0 ∨ ∃ h, e.hashOutcome = some h) := by
  rcases scan_files_source patterns entries ⟨[], [], 0⟩ f hf with hacc | hsrc
  · cases hacc
  · exact hsrc

/-- C7 witness: the surviving file of the counterexample scan is
accounted for by its successfully hashed entry. -/
theorem scan_omits_hash_failures_witness :
    ∃ e ∈ [(⟨"a/x.txt", "x.txt", 5, false, none⟩ : ScanEntry),
           ⟨"b/x.txt", "x.txt", 5, false, some "h"⟩],
      e.path = "b/x.txt" ∧ e.name = "x.txt" ∧ e.isDirectory = false ∧
        (e.size = 0 ∨ ∃ h, e.hashOutcome = some h) := by
  have := scan_omits_hash_failures []
    [⟨"a/x.txt", "x.txt", 5, false, none⟩,
     ⟨"b/x.txt", "x.txt", 5, false, some "h"⟩]
    ⟨"b/x.txt", "x.txt", 5, false, some "h"⟩ (by decide)
  exact this

/-- C7 counterexample: a hash failure on `a/x.txt` removes it from the
scan's file list entirely, so the name-based pass sees only one `x.txt`
and emits no group — the claim said the file stays in the list and still
takes part in name-based grouping. -/
theorem scan_hash_failure_counterexample :
    (scan [] [⟨"a/x.txt", "x.txt", 5, false, none⟩,
              ⟨"b/x.txt", "x.txt", 5, false, some "h"⟩]).files.map
        (fun f => f.path) = ["b/x.txt"] ∧
    findNameBasedDuplicates
      (scan [] [⟨"a/x.txt", "x.txt", 5, false, none⟩,
                ⟨"b/x.txt", "x.txt", 5, false, some "h"⟩]).files = [] := by
  exact ⟨by decide, by decide⟩

theorem joinRel_inj (pre : String) {a b : String}
    (h : joinRel pre a = joinRel pre b) : a = b := by
  unfold joinRel at h
  by_cases hpre : pre = ""
  · simpa [hpre] using h
  · rw [if_neg hpre, if_neg hpre] at h
    have hd := congrArg String.data h
    simp only [String.data_append] at hd
    exact strDataInj (List.append_cancel_left hd)

theorem mapSet_fresh {β : Type} (k : String) (v : β) (l : List (String × β))
    (h : k ∉ l.map Prod.fst) : mapSet k v l = l ++ [(k, v)] := by
  induction l with
  | nil => rfl
  | cons p rest ih =>
    simp only [List.map_cons, List.mem_cons] at h
    push_neg at h
    rw [mapSet, if_neg (fun hh => h.1 hh.symm), ih h.2]
    rfl

theorem fileNames_sub_namesOf (es : List FTree) :
    (fileNames es).Sublist (namesOf es) := by
  induction es with
  | nil => exact List.Sublist.refl _
  | cons e rest ih =>
    cases e with
    | file m c =>
      simpa [fileNames, namesOf, List.filterMap_cons, entryName] using ih.cons₂ m
    | dir m es' =>
      simpa [fileNames, namesOf, List.filterMap_cons, entryName] using ih.cons m

theorem dirNames_sub_namesOf (es : List FTree) :
    (dirNames es).Sublist (namesOf es) := by
  induction es with
  | nil => exact List.Sublist.refl _
  | cons e rest ih =>
    cases e with
    | file m c =>
      simpa [dirNames, namesOf, List.filterMap_cons, entryName] using ih.cons m
    | dir m es' =>
      simpa [dirNames, namesOf, List.filterMap_cons, entryName] using ih.cons₂ m

theorem filesOf_keys (digest : String → String) (pre : String) (es : List FTree) :
    (filesOf digest pre es).map Prod.fst = (fileNames es).map (joinRel pre) := by
  induction es with
  | nil => rfl
  | cons e rest ih =>
    cases e with
    | file m c =>
      rw [show filesOf digest pre (.file m c :: rest) =
          (joinRel pre m, digest c) :: filesOf digest pre rest from rfl,
        show fileNames (.file m c :: rest) = m :: fileNames rest from rfl,
        List.map_cons, List.map_cons, ih]
    | dir m es' =>
      rw [show filesOf digest pre (.dir m es' :: rest) =
          filesOf digest pre rest from rfl,
        show fileNames (.dir m es' :: rest) = fileNames rest from rfl, ih]

theorem filesOf_no_comma (digest : String → String)
    (hdig : ∀ s, ',' ∉ (digest s).data) (pre : String) (es : List FTree) :
    ∀ p ∈ filesOf digest pre es, ',' ∉ p.2.data := by
  intro p hp
  unfold filesOf at hp
  rcases List.mem_filterMap.mp hp with ⟨e, _, he⟩
  cases e with
  | file n c =>
    injection he with he'
    rw [← he']
    exact hdig c
  | dir n es' => exact Option.noConfusion he

theorem dirsOf_keys (digest : String → String) (dp pre : String) (es : List FTree) :
    (dirsOf digest dp pre es).map Prod.fst = dirNames es := by
  induction es with
  | nil => rfl
  | cons e rest ih =>
    cases e with
    | file m c =>
      rw [show dirsOf digest dp pre (.file m c :: rest) =
          dirsOf digest dp pre rest from rfl,
        show dirNames (.file m c :: rest) = dirNames rest from rfl, ih]
    | dir m es' =>
      rw [show dirsOf digest dp pre (.dir m es' :: rest) =
          (m, buildFolderStructure digest (dp ++ "/" ++ m) (joinRel pre m) m es') ::
            dirsOf digest dp pre rest from rfl,
        show dirNames (.dir m es' :: rest) = m :: dirNames rest from rfl,
        List.map_cons, ih]

theorem wfEntries_parts {es : List FTree} (h : wfEntries es = true) :
    (namesOf es).Nodup ∧ wfAll es = true := by
  have := h
  unfold wfEntries at this
  simp only [Bool.and_eq_true, decide_eq_true_eq] at this
  exact this

theorem wfAll_mem {es : List FTree} (h : wfAll es = true) {e : FTree}
    (hmem : e ∈ es) : wfTree e = true := by
  induction es with
  | nil => cases hmem
  | cons e' rest ih =>
    rw [show wfAll (e' :: rest) = (wfTree e' && wfAll rest) from rfl,
      Bool.and_eq_true] at h
    rcases List.mem_cons.mp hmem with h' | h'
    · exact h' ▸ h.1
    · exact ih h.2 h'

theorem wfEntries_of_dir {n : String} {es' : List FTree}
    (h : wfTree (.dir n es') = true) : wfEntries es' = true := h

theorem entryName_sortTree (t : FTree) : entryName (sortTree t) = entryName t := by
  cases t <;> rfl

theorem namesOf_sortEach (es : List FTree) : namesOf (sortEach es) = namesOf es := by
  induction es with
  | nil => rfl
  | cons e rest ih =>
    simp only [sortEach, namesOf, List.map_cons, entryName_sortTree]
    exact congrArg (entryName e :: ·) ih

theorem sortEach_cons (e : FTree) (rest : List FTree) :
    sortEach (e :: rest) = sortTree e :: sortEach rest := by
  simp [sortEach]

theorem filesOf_sortEach (digest : String → String) (pre : String) (es : List FTree) :
    filesOf digest pre (sortEach es) = filesOf digest pre es := by
  induction es with
  | nil => rfl
  | cons e rest ih =>
    rw [sortEach_cons]
    cases e with
    | file m c =>
      rw [show sortTree (FTree.file m c) = FTree.file m c from rfl,
        show filesOf digest pre (.file m c :: sortEach rest) =
          (joinRel pre m, digest c) :: filesOf digest pre (sortEach rest) from rfl,
        show filesOf digest pre (.file m c :: rest) =
          (joinRel pre m, digest c) :: filesOf digest pre rest from rfl, ih]
    | dir m es' =>
      rw [show sortTree (FTree.dir m es') = FTree.dir m (sortTreeList es') from rfl,
        show filesOf digest pre (.dir m (sortTreeList es') :: sortEach rest) =
          filesOf digest pre (sortEach rest) from rfl,
        show filesOf digest pre (.dir m es' :: rest) =
          filesOf digest pre rest from rfl, ih]

theorem sortTreeList_perm_sortEach (es : List FTree) :
    (sortTreeList es).Perm (sortEach es) :=
  List.perm_insertionSort _ _

theorem buildEntries_eq (digest : String → String) (dp pre : String) :
    ∀ (es : List FTree) (accF : List (String × String))
      (accD : List (String × FolderStructure)),
      (namesOf es).Nodup →
      (∀ n ∈ fileNames es, joinRel pre n ∉ accF.map Prod.fst) →
      (∀ n ∈ dirNames es, n ∉ accD.map Prod.fst) →
      buildEntries digest dp pre (accF, accD) es =
        (accF ++ filesOf digest pre es, accD ++ dirsOf digest dp pre es) := by
  intro es
  induction es with
  | nil =>
    intro accF accD _ _ _
    simp [buildEntries, filesOf, dirsOf]
  | cons e rest ih =>
    intro accF accD hnd hF hD
    have hndc : (entryName e) ∉ namesOf rest ∧ (namesOf rest).Nodup := by
      rw [show namesOf (e :: rest) = entryName e :: namesOf rest from rfl,
        List.nodup_cons] at hnd
      exact hnd
    cases e with
    | file n c =>
      have hmem : n ∈ fileNames (FTree.file n c :: rest) := by
        rw [show fileNames (FTree.file n c :: rest) = n :: fileNames rest from rfl]
        exact List.mem_cons_self _ _
      simp only [buildEntries]
      rw [mapSet_fresh _ _ _ (hF n hmem)]
      rw [ih (accF ++ [(joinRel pre n, digest c)]) accD hndc.2 ?_ ?_]
      · rw [show filesOf digest pre (FTree.file n c :: rest) =
            (joinRel pre n, digest c) :: filesOf digest pre rest from rfl,
          show dirsOf digest dp pre (FTree.file n c :: rest) =
            dirsOf digest dp pre rest from rfl]
        simp [List.append_assoc]
      · intro m hm
        rw [List.map_append, List.map_cons, List.map_nil]
        simp only [List.mem_append, List.mem_singleton]
        rintro (hin | heq)
        · exact hF m (by
            rw [show fileNames (FTree.file n c :: rest) = n :: fileNames rest from rfl]
            exact List.mem_cons_of_mem _ hm) hin
        · have : m = n := joinRel_inj pre heq
          subst this
          exact hndc.1 ((fileNames_sub_namesOf rest).subset hm)
      · intro m hm
        exact hD m (by
          rw [show dirNames (FTree.file n c :: rest) = dirNames rest from rfl]
          exact hm)
    | dir n es' =>
      have hmem : n ∈ dirNames (FTree.dir n es' :: rest) := by
        rw [show dirNames (FTree.dir n es' :: rest) = n :: dirNames rest from rfl]
        exact List.mem_cons_self _ _
      simp only [buildEntries]
      rw [mapSet_fresh _ _ _ (hD n hmem)]
      rw [ih accF (accD ++
        [(n, buildFolderStructure digest (dp ++ "/" ++ n) (joinRel pre n) n es')])
        hndc.2 ?_ ?_]
      · rw [show filesOf digest pre (FTree.dir n es' :: rest) =
            filesOf digest pre rest from rfl,
          show dirsOf digest dp pre (FTree.dir n es' :: rest) =
            (n, buildFolderStructure digest (dp ++ "/" ++ n) (joinRel pre n) n es') ::
              dirsOf digest dp pre rest from rfl]
        simp [List.append_assoc]
      · intro m hm
        exact hF m (by
          rw [show fileNames (FTree.dir n es' :: rest) = fileNames rest from rfl]
          exact hm)
      · intro m hm
        rw [List.map_append, List.map_cons, List.map_nil]
        simp only [List.mem_append, List.mem_singleton]
        rintro (hin | heq)
        · exact hD m (by
            rw [show dirNames (FTree.dir n es' :: rest) = n :: dirNames rest from rfl]
            exact List.mem_cons_of_mem _ hm) hin
        · subst heq
          exact hndc.1 ((dirNames_sub_namesOf rest).subset hm)

/-- Under well-formed entry names, the structure built for a directory
has exactly the direct-file map and subdirectory map of its entry list,
and its hash is the digest over them. -/
theorem buildFolderStructure_eq (digest : String → String) (dp pre nm : String)
    (es : List FTree) (hnd : (namesOf es).Nodup) :
    buildFolderStructure digest dp pre nm es =
      FolderStructure.mk dp nm (filesOf digest pre es) (dirsOf digest dp pre es)
        (calculateStructureHash digest (filesOf digest pre es)
          ((dirsOf digest dp pre es).map (fun q => (q.1, q.2.structureHash)))) := by
  simp only [buildFolderStructure]
  rw [buildEntries_eq digest dp pre es [] [] hnd (by simp) (by simp)]
  rfl

theorem namesOf_sortTreeList_perm (es : List FTree) :
    (namesOf (sortTreeList es)).Perm (namesOf es) := by
  have h1 := (sortTreeList_perm_sortEach es).map entryName
  rw [show (sortEach es).map entryName = namesOf (sortEach es) from rfl,
    namesOf_sortEach] at h1
  exact h1

theorem buildHash_sorted_aux (digest : String → String)
    (hdig : ∀ s, ',' ∉ (digest s).data) :
    ∀ (N : Nat) (es : List FTree), sizeOf es < N → wfEntries es = true →
      ∀ (p p' pre nm nm' : String),
        (buildFolderStructure digest p' pre nm' (sortTreeList es)).structureHash =
          (buildFolderStructure digest p pre nm es).structureHash := by
  intro N
  induction N with
  | zero => intro es h; exact absurd h (Nat.not_lt_zero _)
  | succ N ih =>
    intro es hsz hwf p p' pre nm nm'
    obtain ⟨hnd, hall⟩ := wfEntries_parts hwf
    have hndS : (namesOf (sortTreeList es)).Nodup :=
      (namesOf_sortTreeList_perm es).nodup_iff.mpr hnd
    rw [buildFolderStructure_eq digest p pre nm es hnd,
      buildFolderStructure_eq digest p' pre nm' (sortTreeList es) hndS]
    show calculateStructureHash digest (filesOf digest pre (sortTreeList es))
        ((dirsOf digest p' pre (sortTreeList es)).map
          (fun q => (q.1, q.2.structureHash))) =
      calculateStructureHash digest (filesOf digest pre es)
        ((dirsOf digest p pre es).map (fun q => (q.1, q.2.structureHash)))
    have hfiles : sortEntryPairs (filesOf digest pre (sortTreeList es)) =
        sortEntryPairs (filesOf digest pre es) := by
      refine sortByStr_eq_of_perm pairStr ?_ ?_
      · have hp := (sortTreeList_perm_sortEach es).filterMap
          (fun e => match e with
            | FTree.file n c => some (joinRel pre n, digest c)
            | FTree.dir _ _ => none)
        rw [show List.filterMap _ (sortEach es) =
          filesOf digest pre (sortEach es) from rfl] at hp
        rw [show List.filterMap _ (sortTreeList es) =
          filesOf digest pre (sortTreeList es) from rfl] at hp
        rw [filesOf_sortEach] at hp
        exact hp
      · refine pairStr_nodup ?_ (filesOf_no_comma digest hdig pre _)
        rw [filesOf_keys]
        exact List.Nodup.map (fun a b hab => joinRel_inj pre hab)
          (List.Nodup.sublist (fileNames_sub_namesOf _) hndS)
    have inner : ∀ (l : List FTree), (∀ e ∈ l, sizeOf e < sizeOf es) →
        wfAll l = true →
        (dirsOf digest p' pre (sortEach l)).map
            (fun q => (q.1, q.2.structureHash)) =
          (dirsOf digest p pre l).map (fun q => (q.1, q.2.structureHash)) := by
      intro l
      induction l with
      | nil => intro _ _; rfl
      | cons e rest ihl =>
        intro hsizes hwfl
        rw [show wfAll (e :: rest) = (wfTree e && wfAll rest) from rfl,
          Bool.and_eq_true] at hwfl
        rw [sortEach_cons]
        cases e with
        | file m c =>
          rw [show sortTree (FTree.file m c) = FTree.file m c from rfl,
            show dirsOf digest p' pre (FTree.file m c :: sortEach rest) =
              dirsOf digest p' pre (sortEach rest) from rfl,
            show dirsOf digest p pre (FTree.file m c :: rest) =
              dirsOf digest p pre rest from rfl]
          exact ihl (fun x hx => hsizes x (List.mem_cons_of_mem _ hx)) hwfl.2
        | dir m es' =>
          rw [show sortTree (FTree.dir m es') = FTree.dir m (sortTreeList es') from rfl,
            show dirsOf digest p' pre
                (FTree.dir m (sortTreeList es') :: sortEach rest) =
              (m, buildFolderStructure digest (p' ++ "/" ++ m) (joinRel pre m) m
                (sortTreeList es')) :: dirsOf digest p' pre (sortEach rest) from rfl,
            show dirsOf digest p pre (FTree.dir m es' :: rest) =
              (m, buildFolderStructure digest (p ++ "/" ++ m) (joinRel pre m) m es') ::
                dirsOf digest p pre rest from rfl,
            List.map_cons, List.map_cons]
          have h1 := hsizes (FTree.dir m es') (List.mem_cons_self _ _)
          have h2 : sizeOf es' < sizeOf (FTree.dir m es') := by
        
            simp only [FTree.dir.sizeOf_spec]
            omega
          have hsz' : sizeOf es' < N := by omega
          have hwf' : wfEntries es' = true := wfEntries_of_dir hwfl.1
          have hhash := ih es' hsz' hwf' (p ++ "/" ++ m) (p' ++ "/" ++ m)
            (joinRel pre m) m m
          refine congrArg₂ List.cons ?_
            (ihl (fun x hx => hsizes x (List.mem_cons_of_mem _ hx)) hwfl.2)
          exact congrArg (fun h => (m, h)) hhash
    have hdirs : sortDirPairs ((dirsOf digest p' pre (sortTreeList es)).map
          (fun q => (q.1, q.2.structureHash))) =
        sortDirPairs ((dirsOf digest p pre es).map
          (fun q => (q.1, q.2.structureHash))) := by
      refine sortByStr_eq_of_perm dirPairStr ?_ ?_
      · have hp := ((sortTreeList_perm_sortEach es).filterMap
          (fun e => match e with
            | FTree.file _ _ => none
            | FTree.dir n es' =>
              some (n, buildFolderStructure digest (p' ++ "/" ++ n)
                (joinRel pre n) n es'))).map (fun q => (q.1, q.2.structureHash))
        rw [show List.filterMap _ (sortEach es) =
          dirsOf digest p' pre (sortEach es) from rfl] at hp
        rw [show List.filterMap _ (sortTreeList es) =
          dirsOf digest p' pre (sortTreeList es) from rfl] at hp
        rw [inner es (fun e he => List.sizeOf_lt_of_mem he) hall] at hp
        exact hp
      · refine dirPairStr_nodup ?_
        rw [List.map_map,
          show (Prod.fst ∘ fun q : String × FolderStructure =>
            (q.1, q.2.structureHash)) = Prod.fst from rfl,
          dirsOf_keys]
        exact List.Nodup.sublist (dirNames_sub_namesOf _) hndS
    unfold calculateStructureHash
    rw [hfiles, hdirs]

/-- C4: the composite fingerprint is invariant under the order in which
a directory's entries are enumerated — two well-formed trees that are
structurally identical (equal after recursively sorting every entry list
by name, i.e. same relative paths and byte contents) produce equal
composite fingerprints, for any scan paths and any digest whose outputs
carry no comma (as the program's hex digests do; a comma in a hash value
could tie two stringified `[path, hash]` entry pairs, letting `Map`
insertion order leak through the stable sort). -/
theorem folderHash_enum_order_invariant (digest : String → String)
    (hdig : ∀ s, ',' ∉ (digest s).data)
    (es1 es2 : List FTree) (p1 p2 n1 n2 : String)
    (h1 : wfEntries es1 = true) (h2 : wfEntries es2 = true)
    (heq : sortTreeList es1 = sortTreeList es2) :
    (buildFolderStructure digest p1 "" n1 es1).structureHash =
      (buildFolderStructure digest p2 "" n2 es2).structureHash := by
  have e1 := buildHash_sorted_aux digest hdig (sizeOf es1 + 1) es1 (by omega) h1
    p1 "q" "" n1 "m"
  have e2 := buildHash_sorted_aux digest hdig (sizeOf es2 + 1) es2 (by omega) h2
    p2 "q" "" n2 "m"
  rw [← e1, ← e2, heq]

/-- C4 witness: the same two-level tree enumerated in two different
orders hashes identically. -/
theorem folderHash_enum_order_invariant_witness :
    (buildFolderStructure commaFreeDigest "p1" "" "r1"
        [.file "b" "1", .dir "a" [.file "z" "2", .file "y" "3"]]).structureHash =
      (buildFolderStructure commaFreeDigest "p2" "" "r2"
        [.dir "a" [.file "y" "3", .file "z" "2"], .file "b" "1"]).structureHash :=
  folderHash_enum_order_invariant commaFreeDigest
    (by intro s; simp [commaFreeDigest])
    [.file "b" "1", .dir "a" [.file "z" "2", .file "y" "3"]]
    [.dir "a" [.file "y" "3", .file "z" "2"], .file "b" "1"]
    "p1" "p2" "r1" "r2"
    (by simp [wfEntries, wfAll, wfTree, namesOf, entryName])
    (by simp [wfEntries, wfAll, wfTree, namesOf, entryName])
    (by simp [sortTreeList, sortEach, sortTree, List.insertionSort,
      List.orderedInsert, strLe, listCharLe, entryName])

theorem structureHash_specDirect_aux (digest : String → String) :
    ∀ (N : Nat) (es : List FTree), sizeOf es < N → wfEntries es = true →
      ∀ (p pre nm : String),
        (buildFolderStructure digest p pre nm es).structureHash =
          specCompositeDirect digest pre es := by
  intro N
  induction N with
  | zero => intro es h; exact absurd h (Nat.not_lt_zero _)
  | succ N ih =>
    intro es hsz hwf p pre nm
    obtain ⟨hnd, hall⟩ := wfEntries_parts hwf
    rw [buildFolderStructure_eq digest p pre nm es hnd]
    show calculateStructureHash digest (filesOf digest pre es)
        ((dirsOf digest p pre es).map (fun q => (q.1, q.2.structureHash))) =
      specCompositeDirect digest pre es
    have inner : ∀ (l : List FTree), (∀ e ∈ l, sizeOf e < sizeOf es) →
        wfAll l = true →
        (dirsOf digest p pre l).map (fun q => (q.1, q.2.structureHash)) =
          specDirectDirEntries digest pre l := by
      intro l
      induction l with
      | nil => intro _ _; simp [dirsOf, specDirectDirEntries]
      | cons e rest ihl =>
        intro hsizes hwfl
        rw [show wfAll (e :: rest) = (wfTree e && wfAll rest) from rfl,
          Bool.and_eq_true] at hwfl
        cases e with
        | file m c =>
          rw [show dirsOf digest p pre (FTree.file m c :: rest) =
              dirsOf digest p pre rest from rfl]
          rw [show specDirectDirEntries digest pre (FTree.file m c :: rest) =
            specDirectDirEntries digest pre rest by simp [specDirectDirEntries]]
          exact ihl (fun x hx => hsizes x (List.mem_cons_of_mem _ hx)) hwfl.2
        | dir m es' =>
          rw [show dirsOf digest p pre (FTree.dir m es' :: rest) =
              (m, buildFolderStructure digest (p ++ "/" ++ m) (joinRel pre m) m es') ::
                dirsOf digest p pre rest from rfl,
            List.map_cons]
          rw [show specDirectDirEntries digest pre (FTree.dir m es' :: rest) =
            (m, specCompositeDirect digest (joinRel pre m) es') ::
              specDirectDirEntries digest pre rest by simp [specDirectDirEntries]]
          have h1 := hsizes (FTree.dir m es') (List.mem_cons_self _ _)
          have h2 : sizeOf es' < sizeOf (FTree.dir m es') := by
            simp only [FTree.dir.sizeOf_spec]
            omega
          have hsz' : sizeOf es' < N := by omega
          have hwf' : wfEntries es' = true := wfEntries_of_dir hwfl.1
          refine congrArg₂ List.cons ?_
            (ihl (fun x hx => hsizes x (List.mem_cons_of_mem _ hx)) hwfl.2)
          exact congrArg (fun h => (m, h))
            (ih es' hsz' hwf' (p ++ "/" ++ m) (joinRel pre m) m)
    rw [show specCompositeDirect digest pre es =
      digest (String.join ((sortEntryPairs (filesOf digest pre es)).map
          (fun q => "file:" ++ q.1 ++ ":" ++ q.2)) ++
        String.join ((sortDirPairs (specDirectDirEntries digest pre es)).map
          (fun q => "dir:" ++ q.1 ++ ":" ++ q.2))) by simp [specCompositeDirect]]
    unfold calculateStructureHash
    rw [inner es (fun e he => List.sizeOf_lt_of_mem he) hall]

/-- C3 (amended): for a well-formed directory, the composite fingerprint
is the digest of the concatenation of two sorted entry lists built from
the directory's *immediate* entries only: `"file:<relativePath>:<fp>"`
for every immediate file (path relative to the scan base), ordered by
the JS default sort of the stringified `[path, hash]` pairs (the string
`path + "," + hash` in code-unit order — lexicographic by path except
when one path extends another with a character below `','`), followed by
`"dir:<name>:<childHash>"` for every immediate child directory, ordered
likewise by `name + ",[object Object]"`, where a child's hash is
computed the same way (descendant file paths staying relative to the
scan base, not to the child). -/
theorem structureHash_immediate_entries (digest : String → String)
    (es : List FTree) (p pre nm : String) (hwf : wfEntries es = true) :
    (buildFolderStructure digest p pre nm es).structureHash =
      specCompositeDirect digest pre es :=
  structureHash_specDirect_aux digest (sizeOf es + 1) es (by omega) hwf p pre nm

/-- C3 witness: the amended fingerprint formula evaluated on a concrete
two-level tree. -/
theorem structureHash_immediate_entries_witness :
    (buildFolderStructure id "D" "" "D"
        [.dir "S" [.file "f" "c"], .file "g" "x"]).structureHash =
      specCompositeDirect id "" [.dir "S" [.file "f" "c"], .file "g" "x"] :=
  structureHash_immediate_entries id [.dir "S" [.file "f" "c"], .file "g" "x"]
    "D" "" "D" (by simp [wfEntries, wfAll, wfTree, namesOf, entryName])

/-- C3 counterexample: the claim's formula — entry lists over all
*descendant* files of D with child composites computed relative to the
child — disagrees with the code's `calculateStructureHash` already on
`D/S/f`: the code hashes `dir:S:file:S/f:c` while the claim's formula
yields `file:S/f:cdir:S:file:f:c`. -/
theorem structureHash_desc_counterexample :
    (buildFolderStructure id "D" "" "D" [.dir "S" [.file "f" "c"]]).structureHash ≠
      specCompositeDesc id [.dir "S" [.file "f" "c"]] := by
  have h1 : (buildFolderStructure id "D" "" "D"
      [.dir "S" [.file "f" "c"]]).structureHash = "dir:S:file:S/f:c" := by
    simp [buildFolderStructure, buildEntries, calculateStructureHash, mapSet,
      joinRel, sortEntryPairs, sortDirPairs, sortByStr, List.insertionSort,
      List.orderedInsert, FolderStructure.structureHash]
    rfl
  have h2 : specCompositeDesc id [.dir "S" [.file "f" "c"]] =
      "file:S/f:cdir:S:file:f:c" := by
    simp [specCompositeDesc, specDescDirEntries, descFiles, joinRel, sortStrings,
      List.insertionSort, List.orderedInsert]
    rfl
  rw [h1, h2]
  decide

theorem leadsWith_append_self (a t : List Char) : leadsWith a (a ++ t) = true := by
  induction a with
  | nil => rfl
  | cons c cs ih => simp [leadsWith, ih]

theorem leadsWith_mono {a b q : List Char} (h : leadsWith (a ++ b) q = true) :
    leadsWith a q = true := by
  induction a generalizing q with
  | nil => rfl
  | cons c cs ih =>
    cases q with
    | nil => cases h
    | cons d ds =>
      rw [List.cons_append, leadsWith, Bool.and_eq_true] at h
      rw [leadsWith, Bool.and_eq_true]
      exact ⟨h.1, ih h.2⟩

theorem mem_of_leadsWith {p q : List Char} (h : leadsWith p q = true) :
    ∀ c ∈ p, c ∈ q := by
  induction p generalizing q with
  | nil => intro c hc; cases hc
  | cons a as ih =>
    cases q with
    | nil => cases h
    | cons b bs =>
      rw [leadsWith, Bool.and_eq_true, beq_iff_eq] at h
      intro c hc
      rcases List.mem_cons.mp hc with hc | hc
      · exact hc ▸ h.1 ▸ List.mem_cons_self _ _
      · exact List.mem_cons_of_mem _ (ih h.2 c hc)

theorem leadsWith_comparable {a b q : List Char} (ha : leadsWith a q = true)
    (hb : leadsWith b q = true) :
    leadsWith a b = true ∨ leadsWith b a = true := by
  induction q generalizing a b with
  | nil =>
    cases a with
    | nil => exact Or.inl rfl
    | cons x xs => cases ha
  | cons c cs ih =>
    cases a with
    | nil => exact Or.inl rfl
    | cons x xs =>
      cases b with
      | nil => exact Or.inr rfl
      | cons y ys =>
        rw [leadsWith, Bool.and_eq_true, beq_iff_eq] at ha hb
        have hxy : x = y := ha.1.trans hb.1.symm
        subst hxy
        rcases ih ha.2 hb.2 with h | h
        · exact Or.inl (by rw [leadsWith, Bool.and_eq_true]; exact ⟨by simp, h⟩)
        · exact Or.inr (by rw [leadsWith, Bool.and_eq_true]; exact ⟨by simp, h⟩)

theorem slashfree_bounded_eq : ∀ (w n : List Char), (∀ c ∈ w, c ≠ '/') →
    (∀ c ∈ n, c ≠ '/') → leadsWith (w ++ ['/']) (n ++ ['/']) = true → w = n := by
  intro w
  induction w with
  | nil =>
    intro n _ hn h
    cases n with
    | nil => rfl
    | cons c cs =>
      rw [List.nil_append, List.cons_append, leadsWith, Bool.and_eq_true,
        beq_iff_eq] at h
      exact absurd h.1.symm (hn c (List.mem_cons_self _ _))
  | cons a as ih =>
    intro n hw hn h
    cases n with
    | nil =>
      rw [List.nil_append, List.cons_append, leadsWith, Bool.and_eq_true,
        beq_iff_eq] at h
      exact absurd h.1 (hw a (List.mem_cons_self _ _))
    | cons c cs =>
      rw [List.cons_append, List.cons_append, leadsWith, Bool.and_eq_true,
        beq_iff_eq] at h
      rw [ih cs (fun x hx => hw x (List.mem_cons_of_mem _ hx))
        (fun x hx => hn x (List.mem_cons_of_mem _ hx)) h.2, h.1]

theorem scanEntries_subtree_bounded (rules : List GitignoreRule) (inc : Bool)
    (md : Option Nat) :
    ∀ (N : Nat) (es : List WEntry), sizeOf es < N →
      ∀ (pre : List Char) (depth : Nat) (q : List Char), pre ≠ [] →
        q ∈ scanEntries rules inc md pre depth es →
        leadsWith (pre ++ ['/']) q = true := by
  intro N
  induction N with
  | zero => intro es h; exact absurd h (Nat.not_lt_zero _)
  | succ N ih =>
    intro es hsz pre depth q hpre hq
    induction es with
    | nil => simp [scanEntries] at hq
    | cons e rest ihes =>
      have hszrest : sizeOf rest < N + 1 := by
        have : sizeOf rest < sizeOf (e :: rest) := by
          simp only [List.cons.sizeOf_spec]
          omega
        omega
      cases e with
      | file n =>
        simp only [scanEntries, List.mem_append] at hq
        rcases hq with hq | hq
        · split_ifs at hq with h1 h2
          · cases hq
          · cases hq
          · rcases List.mem_singleton.mp hq with rfl
            have : joinRelC pre n = (pre ++ ['/']) ++ n := by
              simp [joinRelC, hpre]
            rw [this]
            exact leadsWith_append_self _ _
        · exact ihes hszrest hq
      | dir n es' =>
        simp only [scanEntries, List.mem_append] at hq
        rcases hq with hq | hq
        · split_ifs at hq with h1 h2
          · cases hq
          · cases hq
          · rcases List.mem_cons.mp hq with rfl | hq
            · have : joinRelC pre n = (pre ++ ['/']) ++ n := by
                simp [joinRelC, hpre]
              rw [this]
              exact leadsWith_append_self _ _
            · rw [scanDirectory] at hq
              split_ifs at hq with hd
              · cases hq
              · have hjoin : joinRelC pre n = (pre ++ ['/']) ++ n := by
                  simp [joinRelC, hpre]
                have hszes' : sizeOf es' < N := by
                  have h1' : sizeOf es' < sizeOf (WEntry.dir n es') := by
                    simp only [WEntry.dir.sizeOf_spec]
                    omega
                  have h2' : sizeOf (WEntry.dir n es') <
                      sizeOf (WEntry.dir n es' :: rest) := by
                    simp only [List.cons.sizeOf_spec]
                    omega
                  omega
                have hne : joinRelC pre n ≠ [] := by
                  rw [hjoin]
                  simp [hpre]
                have := ih es' hszes' (joinRelC pre n) (depth + 1) q hne hq
                rw [hjoin, List.append_assoc] at this
                exact leadsWith_mono this
        · exact ihes hszrest hq

theorem allSlashFree_of_wfName {n : List Char}
    (h : (!n.isEmpty && n.all (fun c => c != '/')) = true) :
    n ≠ [] ∧ ∀ c ∈ n, c ≠ '/' := by
  rw [Bool.and_eq_true] at h
  constructor
  · intro he
    subst he
    cases h.1
  · intro c hc
    have := List.all_eq_true.mp h.2 c hc
    simpa using this

theorem walk_build_pruned_aux (inc : Bool) (md : Option Nat) :
    ∀ (es : List WEntry), wfWAll es = true → ∀ (depth : Nat) (q : List Char),
      q ∈ scanEntries c9rules inc md [] depth es →
      leadsWith "build/".data q = false := by
  intro es
  induction es with
  | nil => intro _ depth q hq; simp [scanEntries] at hq
  | cons e rest ih =>
    intro hwf depth q hq
    rw [show wfWAll (e :: rest) = (wfW e && wfWAll rest) from rfl,
      Bool.and_eq_true] at hwf
    cases e with
    | file n =>
      simp only [scanEntries, List.mem_append] at hq
      rcases hq with hq | hq
      · split_ifs at hq with h1 h2
        · cases hq
        · cases hq
        · have hqn : q = n := by
            have := List.mem_singleton.mp hq
            rw [this]
            simp [joinRelC]
          subst hqn
          obtain ⟨-, hfree⟩ := allSlashFree_of_wfName hwf.1
          cases hlw : leadsWith "build/".data q
          · rfl
          · exact absurd (mem_of_leadsWith hlw '/' (by decide))
              (by intro hmem; exact hfree '/' hmem rfl)
      · exact ih hwf.2 depth q hq
    | dir n es' =>
      simp only [scanEntries, List.mem_append] at hq
      rcases hq with hq | hq
      · split_ifs at hq with h1 h2
        · cases hq
        · cases hq
        · have hwfd : (!n.isEmpty && n.all (fun c => c != '/')) = true ∧
              wfWAll es' = true := by
            have h := hwf.1
            rw [show wfW (WEntry.dir n es') =
              ((!n.isEmpty && n.all (fun c => c != '/')) && wfWAll es') from rfl,
              Bool.and_eq_true] at h
            exact h
          obtain ⟨hne, hfree⟩ := allSlashFree_of_wfName hwfd.1
          have hjoin : joinRelC [] n = n := by simp [joinRelC]
          rcases List.mem_cons.mp hq with hqn | hq
          · have hqn' : q = n := by rw [hqn, hjoin]
            subst hqn'
            cases hlw : leadsWith "build/".data q
            · rfl
            · exact absurd (mem_of_leadsWith hlw '/' (by decide))
                (by intro hmem; exact hfree '/' hmem rfl)
          · rw [scanDirectory] at hq
            split_ifs at hq with hd
            · cases hq
            · rw [hjoin] at hq
              have hpref := scanEntries_subtree_bounded c9rules inc md
                (sizeOf es' + 1) es' (by omega) n (depth + 1) q hne hq
              cases hlw : leadsWith "build/".data q
              · rfl
              · exfalso
                have hbuild : ("build/".data : List Char) =
                    "build".data ++ ['/'] := by decide
                rw [hbuild] at hlw
                have hn : n = "build".data := by
                  rcases leadsWith_comparable hlw hpref with hcase | hcase
                  · exact (slashfree_bounded_eq "build".data n (by decide)
                      hfree hcase).symm
                  · exact slashfree_bounded_eq n "build".data hfree
                      (by decide) hcase
                subst hn
                rw [hjoin] at h2
                revert h2
                decide
      · exact ih hwf.2 depth q hq

/-- C9 (amended): with the root rules `build/` and `!build/keep.txt`,
the walker excludes every path under `build/` — including
`build/keep.txt` itself: the negation cannot re-include it, because the
`build` directory is ignored and pruned before its contents are ever
enumerated. -/
theorem walk_excludes_build (inc : Bool) (md : Option Nat) (es : List WEntry)
    (hwf : wfWAll es = true) :
    ∀ q ∈ walk c9rules inc md es, leadsWith "build/".data q = false := by
  intro q hq
  rw [walk, scanDirectory] at hq
  split_ifs at hq with hd
  · cases hq
  · exact walk_build_pruned_aux inc md es hwf 0 q hq

/-- C9 counterexample: with the rules `build/` and `!build/keep.txt` at
the root, scanning a tree that contains `build/keep.txt` yields only
`a.txt` — the negating rule does *not* re-include `build/keep.txt`,
because the ignored `build` directory is pruned before its contents are
visited. -/
theorem walk_negation_no_reinclude_counterexample :
    walk c9rules true none
        [.dir "build".data [.file "keep.txt".data, .file "other.txt".data],
         .file "a.txt".data] = ["a.txt".data] ∧
      "build/keep.txt".data ∉ walk c9rules true none
        [.dir "build".data [.file "keep.txt".data, .file "other.txt".data],
         .file "a.txt".data] := by
  constructor
  · simp only [walk, scanDirectory, scanEntries, depthLimited, joinRelC,
      hiddenName]
    decide
  · simp only [walk, scanDirectory, scanEntries, depthLimited, joinRelC,
      hiddenName]
    decide

/-- C9 witness: the general pruning theorem applied to the concrete
tree; the surviving path `a.txt` indeed does not start with `build/`. -/
theorem walk_excludes_build_witness :
    leadsWith "build/".data "a.txt".data = false :=
  walk_excludes_build true none
    [.dir "build".data [.file "keep.txt".data, .file "other.txt".data],
     .file "a.txt".data]
    (by simp only [wfWAll, wfW]; decide)
    "a.txt".data
    (by
      simp only [walk, scanDirectory, scanEntries, depthLimited, joinRelC,
        hiddenName]
      decide)

/-- C2: every `DuplicateGroup` emitted by duplicate detection — by the
name-based, content-based or folder-based pass — has at least 2
members. -/
theorem detect_groups_have_min_two (digest : String → String)
    (files : List FileMetadata) (dirs : List FolderInput) (g : DuplicateGroup)
    (hg : g ∈ detectDuplicates digest files dirs) : 2 ≤ g.files.length := by
  rw [detectDuplicates, List.append_assoc] at hg
  rcases List.mem_append.mp hg with hg | hg
  · rcases List.mem_filterMap.mp hg with ⟨p, -, hpg⟩
    split_ifs at hpg with h
    injection hpg with hpg
    subst hpg
    simpa using h
  · rcases List.mem_append.mp hg with hg | hg
    · rcases List.mem_filterMap.mp hg with ⟨p, -, hpg⟩
      split_ifs at hpg with h
      injection hpg with hpg
      subst hpg
      simpa using h
    · rcases List.mem_filterMap.mp hg with ⟨grp, -, hpg⟩
      simp only at hpg
      split_ifs at hpg with h
      injection hpg with hpg
      subst hpg
      simpa using h

/-- C2 witness: a concrete detection run (two same-hash, same-name
files) whose emitted groups the theorem bounds. -/
theorem detect_groups_have_min_two_witness :
    2 ≤ ((detectDuplicates id
        [⟨"a/x", "x", 4, false, some "H"⟩, ⟨"b/x", "x", 4, false, some "H"⟩]
        []).headD default).files.length :=
  detect_groups_have_min_two id
    [⟨"a/x", "x", 4, false, some "H"⟩, ⟨"b/x", "x", 4, false, some "H"⟩] [] _
    (by decide)
